import Mathlib

/-!
Verification development for the memov snapshot/versioning engine
(`memov/core/manager.py`, `memov/core/git.py`).

The Python code is shallowly embedded:

* a file's content is its list of lines (`Content := List String`);
* blob ids and commit ids are strings produced by environment-supplied
  hash functions (`Env.hashC`, `Env.commitIdOf`): git's content
  addressing is abstracted as a function of the hashed data;
* Python dicts with string keys are association lists
  (`alookup` / `aset` / `aerase`), preserving insertion order exactly as
  CPython dicts do;
* the nested `tree_structure` dicts built by `track` / `snapshot` /
  `write_blob_to_bare_repo` are the inductive `TreeNode` type, with
  `insertParts` mirroring the `for part in parts[:-1]` insertion loop
  (the `Option` result models the `TypeError` a blob/dir conflict would
  raise, which the callers turn into `UNKNOWN_ERROR`);
* the durable state a `MemovManager` touches (bare-repo objects,
  `refs/memov/HEAD`, `branches.json`, the workspace, `pending_writes.json`,
  `jump.json`) is the record `MemState`; relative workspace paths key the
  workspace map, and absolute paths are `root ++ "/" ++ rel` (`absOf`).
-/

namespace Memov

abbrev Path := String
abbrev BlobId := String
abbrev CommitId := String
abbrev Content := List String
abbrev MsgLine := List Char
abbrev Msg := List MsgLine

/-- Association-list lookup, first match wins (Python dict `get`). -/
def alookup {α : Type} (l : List (String × α)) (k : String) : Option α :=
  (l.find? (fun e => e.1 == k)).map (·.2)

/-- Association-list update: replace in place if the key exists (as a
CPython dict does), otherwise append. -/
def aset {α : Type} (l : List (String × α)) (k : String) (v : α) :
    List (String × α) :=
  if l.any (fun e => e.1 == k) then
    l.map (fun e => if e.1 == k then (k, v) else e)
  else l ++ [(k, v)]

/-- Association-list key removal (Python `del d[k]`). -/
def aerase {α : Type} (l : List (String × α)) (k : String) :
    List (String × α) :=
  l.filter (fun e => e.1 != k)

/-- The keys of an association list, in order. -/
def akeys {α : Type} (l : List (String × α)) : List String := l.map (·.1)

/-- Split a character list on a separator character; the executable core of
Python's `str.split` with a one-character separator (`"".split` of Python is
not involved: `split_path_parts` always passes `"/"`).  The result is never
empty and splitting `""` gives `[[]]`, as in Python. -/
def splitOnChar (sep : Char) : List Char → List (List Char)
  | [] => [[]]
  | c :: rest =>
    let r := splitOnChar sep rest
    if c = sep then [] :: r
    else
      match r with
      | [] => [[c]]
      | x :: xs => (c :: x) :: xs

/-- `normalize_path_separator` from `string_utils.py`: `path.replace("\\", "/")`
(a one-character pattern, hence a character-wise map). -/
def normalizePathSeparator (p : String) : String :=
  String.mk (p.data.map (fun c => if c = '\\' then '/' else c))

/-- `split_path_parts` from `string_utils.py`:
`normalize_path_separator(rel_path).split("/")`. -/
def splitPathParts (p : Path) : List String :=
  (splitOnChar '/' (normalizePathSeparator p).data).map String.mk

/-- Python's `sep.join(strings)`. -/
def joinWith (sep : String) : List String → String
  | [] => ""
  | [x] => x
  | x :: xs => x ++ sep ++ joinWith sep xs

/-- Lexicographic (code-point) comparison of character lists, Python's
string `<=`. -/
def charListLe : List Char → List Char → Bool
  | [], _ => true
  | _ :: _, [] => false
  | a :: as, b :: bs => if a = b then charListLe as bs else decide (a < b)

/-- Stable insertion of a string into a sorted list. -/
def insertSorted (x : String) : List String → List String
  | [] => [x]
  | y :: ys => if charListLe x.data y.data then x :: y :: ys else y :: insertSorted x ys

/-- Python's `sorted` on strings (stable, lexicographic). -/
def sortStrings (l : List String) : List String := l.foldr insertSorted []

/-- Absolute path of a project-relative path (the embedding of
`(project_root / rel_file).resolve()` on a POSIX system). -/
def absOf (root : String) (rel : Path) : String := root ++ "/" ++ rel


/-! ## Nested tree structures

The Python code represents a git tree under construction as a nested dict
`{"dir": {"file.txt": blob_hash}}` (`tree_structure` in `track`, `snapshot`
and `write_blob_to_bare_repo`).  `TreeNode` is that structure; `insertParts`
is the insertion loop

```python
parts = split_path_parts(rel_path)
current = tree_structure
for part in parts[:-1]:
    if part not in current:
        current[part] = {}
    current = current[part]
current[parts[-1]] = blob_hash
```

A `none` result models the `TypeError` that the loop raises when a path
component already holds a blob hash (a string) where a dict is needed; the
callers' `except` blocks turn that into `UNKNOWN_ERROR`. -/

inductive TreeNode where
  | blob (id : BlobId)
  | dir (children : List (String × TreeNode))

/-- Insert a blob at a path (given as its list of components) into a nested
tree-structure dict. -/
def insertParts (t : List (String × TreeNode)) :
    List String → BlobId → Option (List (String × TreeNode))
  | [], _ => none
  | [name], b => some (aset t name (.blob b))
  | part :: rest₁ :: rest₂, b =>
    match alookup t part with
    | some (.blob _) => none
    | some (.dir cs) =>
      (insertParts cs (rest₁ :: rest₂) b).map (fun cs' => aset t part (.dir cs'))
    | none =>
      (insertParts [] (rest₁ :: rest₂) b).map (fun cs' => aset t part (.dir cs'))

/-- Look up the blob recorded at a path in a nested tree-structure dict. -/
def lookupParts (t : List (String × TreeNode)) : List String → Option BlobId
  | [] => none
  | [name] =>
    match alookup t name with
    | some (.blob b) => some b
    | _ => none
  | part :: rest₁ :: rest₂ =>
    match alookup t part with
    | some (.dir cs) => lookupParts cs (rest₁ :: rest₂)
    | _ => none

/-- Build the nested tree-structure dict from a flat list of
`(relative path, blob id)` entries, in order — the common loop shared by
`track`, scoped `snapshot` and `write_blob_to_bare_repo`. -/
def buildTreeStruct (entries : List (Path × BlobId)) :
    Option (List (String × TreeNode)) :=
  entries.foldlM (fun t e => insertParts t (splitPathParts e.1) e.2) []

/-- Two component paths conflict when one is a (possibly improper) prefix of
the other: git cannot record both a blob and a directory under one name. -/
def nonConflict (p q : List String) : Prop := ¬ p <+: q ∧ ¬ q <+: p

instance (p q : List String) : Decidable (nonConflict p q) := by
  unfold nonConflict; infer_instance

/-! The flat `git ls-tree -r` view of a nested tree: every recorded
`(relative path, blob id)` pair (paths joined by `/` in `flattenTree`). -/

mutual

def flattenNode : String → TreeNode → List (List String × BlobId)
  | n, .blob b => [([n], b)]
  | n, .dir cs => (flattenChildren cs).map (fun e => (n :: e.1, e.2))

def flattenChildren : List (String × TreeNode) → List (List String × BlobId)
  | [] => []
  | (n, t) :: rest => flattenNode n t ++ flattenChildren rest

end

/-- `GitManager.get_files_by_commit` file list / blob map for a tree. -/
def flattenTree (cs : List (String × TreeNode)) : List (Path × BlobId) :=
  (flattenChildren cs).map (fun e => (joinWith "/" e.1, e.2))


/-! ## Decimal numerals

`jump` names its new branch `f"jump/{i}"`; Python's `str(i)` is Lean's
`Nat.repr`.  To prove that the branch-name search terminates on a fresh
name we need that distinct numbers print distinctly, i.e. that `Nat.repr`
is injective, which we derive from a place-value evaluation of
`Nat.toDigitsCore`. -/

/-- Numeric value of a digit character (inverse of `Nat.digitChar` below 10). -/
def digitVal (c : Char) : Nat := c.toNat - '0'.toNat

/-- Place-value reading of a digit string. -/
def digitsVal : List Char → Nat
  | [] => 0
  | c :: cs => digitVal c * 10 ^ cs.length + digitsVal cs


/-- The jump branch name for an index `i`: Python `f"jump/{i}"`. -/
def jumpNm (i : Nat) : String := "jump/" ++ Nat.repr i


/-- The `while f"jump/{i}" in branches["branches"]: i += 1` search from
`_generate_jump_branch_name`, bounded by an explicit fuel;
`generateJumpN_not_mem` shows the bound used by `generateJumpN` always
suffices to exit on a free name, so this equals Python's unbounded loop. -/
def jumpNameLoop (keys : List String) : Nat → Nat → Nat
  | 0, i => i
  | fuel + 1, i => if jumpNm i ∈ keys then jumpNameLoop keys fuel (i + 1) else i

/-- The index chosen by `_generate_jump_branch_name` (starting at `i = 1`). -/
def generateJumpN (branches : List (String × CommitId)) : Nat :=
  jumpNameLoop (akeys branches) (branches.length + 1) 1

/-- `MemovManager._generate_jump_branch_name` (the `not isinstance` guard
cannot fire in this typed embedding: `jump` always passes the registry's
`branches` dict). -/
def generateJumpBranchName (branches : List (String × CommitId)) : String :=
  jumpNm (generateJumpN branches)


/-! ## Commit messages

The commit messages built by `track`, `snapshot`, `create_prompt_only_commit`,
`rename` and `remove` are modelled at line granularity: a message is the list
of its lines (split on `"\n"`), each line a `List Char`.  A Python f-string
piece `f"Label: {value}\n..."` contributes the lines of `value` with
`"Label: "` prepended to the first one (`labeled`), since `value` itself may
contain newlines.  `optStr` is Python's interpolation of `None`. -/

def optStr : Option String → String
  | some s => s
  | none => "None"

/-- The lines of a string (split on `'\n'`), each as a character list. -/
def linesOfStr (s : String) : List MsgLine := splitOnChar '\n' s.data

/-- Prepend a field label to the first line of a value. -/
def labeled (label : String) (v : List MsgLine) : List MsgLine :=
  match v with
  | [] => [label.data]
  | x :: xs => (label.data ++ x) :: xs

/-- `'User' if by_user else 'AI'`. -/
def srcText (byUser : Bool) : String := if byUser then "User" else "AI"

/-- The commit message of `track` (identical text in its with-HEAD and
first-commit branches):
`"Track files\n\nFiles: ...\nPrompt: ...\nResponse: ...\nSource: ..."`. -/
def trackMsg (files : List String) (prompt response : Option String)
    (byUser : Bool) : Msg :=
  ["Track files".data, []]
    ++ labeled "Files: " (linesOfStr (joinWith ", " files))
    ++ labeled "Prompt: " (linesOfStr (optStr prompt))
    ++ labeled "Response: " (linesOfStr (optStr response))
    ++ labeled "Source: " (linesOfStr (srcText byUser))

/-- The commit message of scoped `snapshot`:
`f"Create snapshot\n\nFiles: {', '.join(sorted(tracked_specified))}\nPrompt: ...\nResponse: ...\nAgent Plan: ...\nSource: ..."`. -/
def snapMsgScoped (files : List String) (prompt response agentPlan : Option String)
    (byUser : Bool) : Msg :=
  ["Create snapshot".data, []]
    ++ labeled "Files: " (linesOfStr (joinWith ", " (sortStrings files)))
    ++ labeled "Prompt: " (linesOfStr (optStr prompt))
    ++ labeled "Response: " (linesOfStr (optStr response))
    ++ labeled "Agent Plan: " (linesOfStr (optStr agentPlan))
    ++ labeled "Source: " (linesOfStr (srcText byUser))

/-- The commit message of full-mode `snapshot` (no `Files` field). -/
def snapMsgFull (prompt response agentPlan : Option String) (byUser : Bool) : Msg :=
  ["Create snapshot".data, []]
    ++ labeled "Prompt: " (linesOfStr (optStr prompt))
    ++ labeled "Response: " (linesOfStr (optStr response))
    ++ labeled "Agent Plan: " (linesOfStr (optStr agentPlan))
    ++ labeled "Source: " (linesOfStr (srcText byUser))

/-- The commit message of `create_prompt_only_commit`. -/
def promptOnlyMsg (prompt response agentPlan : Option String) (byUser : Bool) : Msg :=
  ["[prompt-only] Record interaction".data, []]
    ++ labeled "Prompt: " (linesOfStr (optStr prompt))
    ++ labeled "Response: " (linesOfStr (optStr response))
    ++ labeled "Agent Plan: " (linesOfStr (optStr agentPlan))
    ++ labeled "Source: " (linesOfStr (srcText byUser))

/-- The commit message of `rename`; `oldExisted` selects the header used when
the workspace file was renamed by the call itself. -/
def renameMsg (oldExisted : Bool) (oldRel newPath : String)
    (prompt response : Option String) (byUser : Bool) : Msg :=
  [(if oldExisted then "Rename file" else
      "Rename file (already renamed by user)").data, []]
    ++ labeled "Files: " (linesOfStr (oldRel ++ " -> " ++ newPath))
    ++ labeled "Prompt: " (linesOfStr (optStr prompt))
    ++ labeled "Response: " (linesOfStr (optStr response))
    ++ labeled "Source: " (linesOfStr (srcText byUser))

/-- The commit message of `remove`. -/
def removeMsg (fileExisted : Bool) (targetRel : String)
    (prompt response : Option String) (byUser : Bool) : Msg :=
  [(if fileExisted then "Remove file" else "Remove file (already missing)").data,
    []]
    ++ labeled "Files: " (linesOfStr targetRel)
    ++ labeled "Prompt: " (linesOfStr (optStr prompt))
    ++ labeled "Response: " (linesOfStr (optStr response))
    ++ labeled "Source: " (linesOfStr (srcText byUser))


/-! ## Field-order view of commit messages

`_parse_note_content`, `report` and the history readers locate the
structured fields by line-prefix matching; `fieldOrder` lists, in order of
occurrence, which field labels start the lines of a message. -/

/-- The five structured field labels of the commit-message grammar, in the
order the specification asserts they appear. -/
def msgLabels : List (List Char) :=
  ["Prompt:".data, "Response:".data, "Agent Plan:".data, "Source:".data,
    "Files:".data]

/-- The field label starting a message line, if any. -/
def lineLabel (l : MsgLine) : Option (List Char) :=
  msgLabels.find? (fun lab => lab.isPrefixOf l)

/-- The labels of a message's field lines, in order of occurrence. -/
def fieldOrder (m : Msg) : List (List Char) := m.filterMap lineLabel

/-- The order claimed by the specification: Prompt, Response, Agent Plan,
Source, Files. -/
def claimedFieldOrder : List (List Char) := msgLabels

/-- No line of a value starts with a structured field label (field values
do not inject spurious field lines). -/
def labelFree (v : List MsgLine) : Prop := ∀ l ∈ v, lineLabel l = none

instance (v : List MsgLine) : Decidable (labelFree v) := by
  unfold labelFree; infer_instance

/-! ## Structured diffs (`_get_commit_diff_by_file`) -/

structure DiffLine where
  ty : String
  content : String
deriving DecidableEq, Repr

structure Hunk where
  header : String
  oldStart : Nat
  oldCount : Nat
  newStart : Nat
  newCount : Nat
  lines : List DiffLine
deriving DecidableEq, Repr

structure FileDiff where
  status : String
  hunks : List Hunk
deriving DecidableEq, Repr

/-! ## Durable state and environment -/

/-- A commit object in the bare repository. -/
structure CommitObj where
  parent : Option CommitId
  tree : List (String × TreeNode)
  message : Msg

/-- One value of the legacy per-branch `jump_from` map in `branches.json`. -/
structure JumpFromMeta where
  fromCommit : CommitId
  toCommit : CommitId
  fromBranch : Option String
deriving DecidableEq, Repr

/-- The `branches.json` document:
`{"current": ..., "branches": {...}, "jump_from": {...}}`. -/
structure BranchesCfg where
  current : Option String
  branches : List (String × CommitId)
  jumpFrom : List (String × JumpFromMeta)
deriving DecidableEq, Repr

/-- One entry of the append-only `jump.json` history. -/
structure JumpRec where
  id : Nat
  timestamp : String
  action : String
  fromCommit : CommitId
  toCommit : CommitId
  fromBranch : Option String
  newBranch : String
deriving DecidableEq, Repr

/-- One entry of the pending-writes queue (`pending_writes.json`). -/
structure PendingWrite where
  operationType : String
  commitHash : CommitId
  prompt : Option String
  response : Option String
  agentPlan : Option String
  byUser : Bool
  files : List String
  parentHash : Option CommitId
  timestamp : String
deriving DecidableEq, Repr

/-- All durable state a `MemovManager` touches: the bare repo's object store
(commits and blobs) and `refs/memov/HEAD`, the `branches.json` registry
(`none` = file absent), the working directory (keyed by project-relative
path), the pending-writes queue together with its backing file's existence,
and the `jump.json` log. `mainRef` is the bare repo's own `main` branch head,
which this code reads as a fallback but never writes. -/
structure MemState where
  commits : List (CommitId × CommitObj)
  blobs : List (BlobId × Content)
  headRef : Option CommitId
  mainRef : Option CommitId
  branchesFile : Option BranchesCfg
  workspace : List (Path × Content)
  pendingWrites : List PendingWrite
  pendingFileOnDisk : Bool
  jumpHistory : List JumpRec

/-- The environment abstracts git's content hashing, the `.memignore`
pathspec matcher, the wall clock, and interactive input. -/
structure Env where
  root : String
  hashC : Content → BlobId
  commitIdOf : List (String × TreeNode) → Option CommitId → Msg → CommitId
  mign : Path → Bool
  now : String
  confirmRemove : Bool
  parsedDiff : CommitId → CommitId → List (Path × FileDiff)

/-! ## Object-store helper embeddings (`git.py`) -/

/-- Commit lookup in the object store. -/
def getCommit (s : MemState) (cid : CommitId) : Option CommitObj :=
  alookup s.commits cid

/-- `GitManager.get_commit_id_by_ref` (`git rev-parse`): resolves
`refs/memov/HEAD`, `main`, or a full commit id (short-hash resolution is not
modelled; the `""`-on-failure convention becomes `Option`). -/
def resolveRef (s : MemState) (ref : String) : Option CommitId :=
  if ref = "refs/memov/HEAD" then s.headRef
  else if ref = "main" then s.mainRef
  else if (alookup s.commits ref).isSome then some ref else none

/-- The relative paths in a commit's tree
(`GitManager.get_files_by_commit`, first component). -/
def commitFilesRel (s : MemState) (cid : CommitId) : List Path :=
  match getCommit s cid with
  | some c => (flattenTree c.tree).map (·.1)
  | none => []

/-- The absolute paths in a commit's tree
(`GitManager.get_files_by_commit`, second component). -/
def commitFilesAbs (env : Env) (s : MemState) (cid : CommitId) : List String :=
  (commitFilesRel s cid).map (absOf env.root)

/-- `GitManager.get_files_and_blobs_by_commit`, keyed here by relative path
(the Python dict keys by the resolved absolute path, a bijective
re-encoding). -/
def commitBlobsRel (s : MemState) (cid : CommitId) : List (Path × BlobId) :=
  match getCommit s cid with
  | some c => flattenTree c.tree
  | none => []

/-- `git update-ref refs/memov/HEAD cid` fails (leaving the ref unchanged)
when handed an empty id. -/
def applyRef (old : Option CommitId) (cid : CommitId) : Option CommitId :=
  if cid = "" then old else some cid

/-- `GitManager.get_commit_history` (`git rev-list --reverse tip`): the
ancestry of `tip`, oldest first; fuel-bounded walk of parent links (the
store is finite and acyclic; on a dangling reference git errors and the
caller gets `[]`). -/
def ancestryAux (s : MemState) : Nat → Option CommitId → List CommitId
  | 0, _ => []
  | _, none => []
  | fuel + 1, some c =>
    match getCommit s c with
    | none => []
    | some obj => ancestryAux s fuel obj.parent ++ [c]

def ancestry (s : MemState) (tip : CommitId) : List CommitId :=
  ancestryAux s (s.commits.length + 1) (some tip)

/-- `GitManager.git_archive`: the tar stream of a commit, as the list of
`(relative path, content)` it would extract; `none` when the commit or one
of its blobs is unreadable. -/
def archiveOf (s : MemState) (cid : CommitId) : Option (List (Path × Content)) :=
  (getCommit s cid).bind (fun c =>
    (flattenTree c.tree).mapM (fun e =>
      (alookup s.blobs e.2).map (fun ct => (e.1, ct))))

/-- `GitManager.write_blobs` (`git hash-object -w --stdin-paths`): hash every
listed workspace file, store the blobs, and return the path→blob map; files
missing from disk fail to hash and are left out of the map. -/
def writeBlobs (env : Env) (s : MemState) (paths : List Path) :
    MemState × List (Path × BlobId) :=
  paths.foldl
    (fun acc p =>
      match alookup acc.1.workspace p with
      | none => acc
      | some c =>
        let h := env.hashC c
        ({ acc.1 with blobs := aset acc.1.blobs h c }, acc.2 ++ [(p, h)]))
    (s, [])

/-- `git commit-tree` plus object storage: a fresh commit object, or `""`
(and no store change) when git fails. -/
def commitTree (env : Env) (s : MemState) (tree : List (String × TreeNode))
    (msg : Msg) (parent : Option CommitId) : MemState × CommitId :=
  let cid := env.commitIdOf tree parent msg
  if cid = "" then (s, "")
  else ({ s with commits := aset s.commits cid ⟨parent, tree, msg⟩ }, cid)

/-- `GitManager.create_commit_from_tree_structure`: `mktree` the nested
structure and `commit-tree` it with `refs/memov/HEAD` as parent. -/
def createCommitFromTreeStructure (env : Env) (s : MemState)
    (tree : List (String × TreeNode)) (msg : Msg) : MemState × CommitId :=
  commitTree env s tree msg s.headRef

/-- `GitManager.write_blob_to_bare_repo`: batch-hash the given files, build
the nested tree from their `(rel path, blob)` entries, and commit it with
`refs/memov/HEAD` as parent; any blob or tree failure yields `""`. -/
def writeBlobToBareRepo (env : Env) (s : MemState) (files : List Path)
    (msg : Msg) : MemState × CommitId :=
  if files.isEmpty then (s, "")
  else
    let r := writeBlobs env s files
    match files.mapM (fun p => (alookup r.2 p).map (fun b => (p, b))) with
    | none => (r.1, "")
    | some entries =>
      match buildTreeStruct entries with
      | none => (r.1, "")
      | some tree => commitTree env r.1 tree msg r.1.headRef

/-! ## Manager-level helpers (`manager.py`) -/

/-- `MemStatus` from `manager.py`. -/
inductive MemStatus where
  | SUCCESS
  | PROJECT_NOT_FOUND
  | BARE_REPO_NOT_FOUND
  | FAILED_TO_COMMIT
  | UNKNOWN_ERROR
deriving DecidableEq, Repr

/-- The inner `filter` closure of `_filter_new_files` (`True` = exclude):
already-tracked check, the `.memignore`-itself exception, then the ignore
ruleset (`exclude_memignore` is `True` at every call site modelled here). -/
def filterPred (mign : Path → Bool) (tracked : Option (List Path))
    (p : Path) : Bool :=
  match tracked with
  | some ts =>
    if p ∈ ts then true
    else if p = ".memignore" then false
    else mign p
  | none => if p = ".memignore" then false else mign p

/-- `_filter_new_files` on a list of plain file paths (the `os.path.isfile`
branch): paths absent from the workspace are skipped (`does not exist`),
the rest pass through the `filter` closure.  Paths are taken
project-relative (the `os.path.abspath`/`relpath` round trip is the
identity in this embedding).  Directory inputs go through `walkProject`
below instead. -/
def filterNewFilesFiles (ws : List (Path × Content)) (mign : Path → Bool)
    (inputs : List Path) (tracked : Option (List Path)) : List Path :=
  inputs.filter (fun p =>
    (alookup ws p).isSome && !(filterPred mign tracked p))

/-- The path components of a path's parent directory. -/
def dirSegs (p : Path) : List String := (splitPathParts p).dropLast

/-- `_filter_new_files([self.project_path], ...)`: the `os.walk` over the
whole project, on the flat workspace view.  A file is enumerated unless a
directory on its path is named `.mem` or `.git` (pruned from `dirs`), its
immediate parent directory (the walk's `rel_root`, when not `.`) matches the
ignore ruleset, or the per-file `filter` closure excludes it. -/
def walkProject (ws : List (Path × Content)) (mign : Path → Bool)
    (tracked : Option (List Path)) : List Path :=
  (ws.map (·.1)).filter (fun p =>
    let ds := dirSegs p
    !(ds.any (fun d => d == ".mem" || d == ".git"))
    && (ds.isEmpty || !(mign (joinWith "/" ds)))
    && !(filterPred mign tracked p))

/-- `_validate_and_fix_branches`: self-heal an empty `main` tip from
`refs/memov/HEAD`, and an invalid `current` back to `main`. -/
def validateAndFixBranches (s : MemState) : MemState :=
  match s.branchesFile with
  | none => s
  | some b =>
    let fixedBranches := b.branches.map (fun e =>
      if e.2 = "" ∧ e.1 = "main" then
        match s.headRef with
        | some h => (e.1, h)
        | none => e
      else e)
    let fixedCurrent :=
      match b.current with
      | some cur =>
        if (alookup fixedBranches cur).isSome then some cur else some "main"
      | none => none
    let b' := { b with branches := fixedBranches, current := fixedCurrent }
    { s with branchesFile := some b' }

/-- `_update_branch`: advance the current branch's tip (creating the
registry with `main` on the very first commit), then point
`refs/memov/HEAD` at the new commit. -/
def updateBranch (s : MemState) (newCommit : CommitId) (reset : Bool) :
    MemState :=
  match s.branchesFile with
  | none =>
    { s with
      branchesFile := some ⟨some "main", [("main", newCommit)], []⟩,
      headRef := applyRef s.headRef newCommit }
  | some b =>
    let b' :=
      if reset then
        let b₁ :=
          match b.current with
          | some cur =>
            if (alookup b.branches cur).isSome then
              match s.headRef with
              | some h => { b with branches := aset b.branches cur h }
              | none => b
            else b
          | none => b
        { b₁ with current := none }
      else
        match b.current with
        | some cur =>
          if (alookup b.branches cur).isSome then
            { b with branches := aset b.branches cur newCommit }
          else b
        | none => b
    { s with branchesFile := some b',
             headRef := applyRef s.headRef newCommit }

/-- `_add_to_pending_writes` followed by `_save_pending_writes`: the parent
hash recorded is the current `refs/memov/HEAD` unless that already equals
the new commit. -/
def addToPendingWrites (env : Env) (s : MemState) (operationType : String)
    (commitHash : CommitId) (prompt response agentPlan : Option String)
    (byUser : Bool) (files : List String) : MemState :=
  let parentHash : Option CommitId :=
    match s.headRef with
    | some h => if h ≠ commitHash then some h else none
    | none => none
  { s with
    pendingWrites := s.pendingWrites ++
      [⟨operationType, commitHash, prompt, response, agentPlan, byUser, files,
        parentHash, env.now⟩],
    pendingFileOnDisk := true }

/-- `_commit`: validate branches, (git user config has no modelled effect,)
commit the files via `write_blob_to_bare_repo`, and advance the branch with
whatever id came back — including the empty one. -/
def commitOp (env : Env) (s : MemState) (msg : Msg) (files : List Path) :
    MemState × CommitId :=
  let s₁ := validateAndFixBranches s
  let r := writeBlobToBareRepo env s₁ files msg
  (updateBranch r.1 r.2 false, r.2)

/-- `_record_jump` (with `_load_jump_history`/`_save_jump_history`). -/
def recordJump (env : Env) (s : MemState) (fromCommit toCommit : CommitId)
    (fromBranch : Option String) (newBranch : String) : MemState :=
  let nextId := (s.jumpHistory.map (·.id)).foldl max 0 + 1
  { s with jumpHistory := s.jumpHistory ++
      [⟨nextId, env.now, "jump", fromCommit, toCommit, fromBranch, newBranch⟩] }

/-- The deletion loop of `jump` (`manager.py` lines 1242–1249): iterate the
union of ever-tracked files — a set of *absolute* paths — and delete those
that are "not in" the target commit's file list — which holds *relative*
paths — and exist on disk. -/
def jumpDeletionSet (root : String) (allTrackedAbs : List String)
    (snapshotFilesRel : List Path) (ws : List (Path × Content)) :
    List String :=
  allTrackedAbs.filter (fun f =>
    !(snapshotFilesRel.contains f) && ws.any (fun e => absOf root e.1 == f))

/-! ## The write operations -/

/-- `MemovManager.track` for plain file-path inputs (directory expansion of
inputs goes through the same `filter` closure and is not needed by the
claims below).  Mirrors `manager.py` lines 199–342. -/
def trackOp (env : Env) (s : MemState) (filePaths : List Path)
    (prompt response : Option String) (byUser : Bool) : MemStatus × MemState :=
  if filePaths.isEmpty then (.SUCCESS, s)
  else
    let headC : Option CommitId :=
      match s.headRef with
      | some h => some h
      | none => s.mainRef
    let tracked :=
      match headC with
      | some h => commitFilesRel s h
      | none => []
    let newFiles := filterNewFilesFiles s.workspace env.mign filePaths
      (some tracked)
    if newFiles.isEmpty then (.SUCCESS, s)
    else
      match headC with
      | some h =>
        -- existing files keep their HEAD blobs, new files are batch-hashed
        let headBlobs := commitBlobsRel s h
        let baseEntries := tracked.filterMap (fun p =>
          (alookup headBlobs p).map (fun b => (p, b)))
        let r := writeBlobs env s newFiles
        match newFiles.mapM (fun p => (alookup r.2 p).map (fun b => (p, b))) with
        | none => (.UNKNOWN_ERROR, r.1)
        | some newEntries =>
          match buildTreeStruct (baseEntries ++ newEntries) with
          | none => (.UNKNOWN_ERROR, r.1)
          | some tree =>
            let msg := trackMsg newFiles prompt response byUser
            let c := createCommitFromTreeStructure env r.1 tree msg
            if c.2 = "" then (.FAILED_TO_COMMIT, c.1)
            else
              let s₂ := updateBranch (validateAndFixBranches c.1) c.2 false
              (.SUCCESS, addToPendingWrites env s₂ "track" c.2 prompt response
                none byUser newFiles)
      | none =>
        -- first commit: no existing files, go through `_commit`
        let msg := trackMsg newFiles prompt response byUser
        let c := commitOp env s msg newFiles
        if c.2 = "" then (.FAILED_TO_COMMIT, c.1)
        else
          (.SUCCESS, addToPendingWrites env c.1 "track" c.2 prompt response
            none byUser newFiles)

/-- `MemovManager.snapshot` (`manager.py` lines 344–549), both modes.
Scoped-mode path relativization is the identity here (inputs are
project-relative); the full-mode untracked-files warning has no state
effect and is omitted. -/
def snapshotOp (env : Env) (s : MemState) (filePaths : Option (List Path))
    (prompt response agentPlan : Option String) (byUser : Bool) :
    MemStatus × MemState :=
  let detached : Bool :=
    match s.branchesFile with
    | some b => b.current.isNone
    | none => false
  if detached then (.UNKNOWN_ERROR, s)
  else
    match s.headRef with
    | none => (.SUCCESS, s)   -- no tracked files to snapshot
    | some h =>
      let tracked := commitFilesRel s h
      if tracked.isEmpty then (.SUCCESS, s)
      else
        match filePaths with
        | some fps =>
          -- scoped mode
          let specified := fps.dedup
          let trackedSpecified := specified.filter (fun p => p ∈ tracked)
          if trackedSpecified.isEmpty then (.SUCCESS, s)
          else
            let headBlobs := commitBlobsRel s h
            let filesToHash := trackedSpecified.filter (fun p =>
              (alookup s.workspace p).isSome)
            let r := writeBlobs env s filesToHash
            let choice : Path → Option BlobId := fun p =>
              if p ∈ trackedSpecified ∧ (alookup s.workspace p).isSome then
                alookup r.2 p
              else alookup headBlobs p
            match tracked.mapM (fun p => (choice p).map (fun b => (p, b))) with
            | none => (.UNKNOWN_ERROR, r.1)
            | some entries =>
              match buildTreeStruct entries with
              | none => (.UNKNOWN_ERROR, r.1)
              | some tree =>
                let msg := snapMsgScoped trackedSpecified prompt response
                  agentPlan byUser
                let c := createCommitFromTreeStructure env r.1 tree msg
                if c.2 = "" then (.FAILED_TO_COMMIT, c.1)
                else
                  let s₂ := updateBranch (validateAndFixBranches c.1) c.2 false
                  (.SUCCESS, addToPendingWrites env s₂ "snap" c.2 prompt
                    response agentPlan byUser trackedSpecified)
        | none =>
          -- full mode: every tracked path is re-read from disk
          let msg := snapMsgFull prompt response agentPlan byUser
          let c := commitOp env s msg tracked
          if c.2 = "" then (.SUCCESS, c.1)
          else
            (.SUCCESS, addToPendingWrites env c.1 "snap" c.2 prompt response
              agentPlan byUser tracked)

/-- `MemovManager.create_prompt_only_commit` (`manager.py` lines 551–629). -/
def promptOnlyOp (env : Env) (s : MemState)
    (prompt response agentPlan : Option String) (byUser : Bool) :
    (MemStatus × CommitId) × MemState :=
  let detached : Bool :=
    match s.branchesFile with
    | some b => b.current.isNone
    | none => false
  if detached then ((.UNKNOWN_ERROR, ""), s)
  else
    match s.headRef with
    | none => ((.UNKNOWN_ERROR, ""), s)
    | some h =>
      match getCommit s h with
      | none => ((.UNKNOWN_ERROR, ""), s)   -- get_tree_hash failed
      | some obj =>
        let msg := promptOnlyMsg prompt response agentPlan byUser
        let c := commitTree env s obj.tree msg (some h)
        if c.2 = "" then ((.FAILED_TO_COMMIT, ""), c.1)
        else
          let s₂ := updateBranch (validateAndFixBranches c.1) c.2 false
          ((.SUCCESS, c.2),
            addToPendingWrites env s₂ "prompt-only" c.2 prompt response
              agentPlan byUser [])

/-- Move a workspace file (`os.rename`). -/
def wsRename (ws : List (Path × Content)) (old new : Path) :
    List (Path × Content) :=
  match alookup ws old with
  | some c => aset (aerase ws old) new c
  | none => ws

/-- `MemovManager.rename` (`manager.py` lines 631–712); the Python method
returns `None`, so only the state comes back. -/
def renameOp (env : Env) (s : MemState) (oldPath newPath : Path)
    (prompt response : Option String) (byUser : Bool) : MemState :=
  let oldExisted := (alookup s.workspace oldPath).isSome
  let newExisted := (alookup s.workspace newPath).isSome
  if oldExisted && newExisted then s
  else if !oldExisted && !newExisted then s
  else
    let tracked :=
      match s.headRef with
      | some h => commitFilesRel s h
      | none => []
    if oldPath ∉ tracked then s
    else
      let ws' := if oldExisted then wsRename s.workspace oldPath newPath
                 else s.workspace
      let s₀ := { s with workspace := ws' }
      let msg := renameMsg oldExisted oldPath newPath prompt response byUser
      let fileList := walkProject ws' env.mign none
      let c := commitOp env s₀ msg fileList
      if c.2 = "" then c.1
      else addToPendingWrites env c.1 "rename" c.2 prompt response none byUser
        [oldPath, newPath]

/-- `MemovManager.remove` (`manager.py` lines 714–795); the interactive
confirmation prompt is `env.confirmRemove`. -/
def removeOp (env : Env) (s : MemState) (target : Path)
    (prompt response : Option String) (byUser : Bool) : MemState :=
  let tracked :=
    match s.headRef with
    | some h => commitFilesRel s h
    | none => []
  if target ∉ tracked then s
  else
    let existed := (alookup s.workspace target).isSome
    if existed && !env.confirmRemove then s
    else
      let ws' := if existed then aerase s.workspace target else s.workspace
      let msg := removeMsg existed target prompt response byUser
      let fileList := tracked.filter (fun p =>
        p != target && (alookup ws' p).isSome)
      let s₀ := { s with workspace := ws' }
      let c := commitOp env s₀ msg fileList
      if c.2 = "" then c.1
      else addToPendingWrites env c.1 "remove" c.2 prompt response none byUser
        [target]

/-- `MemovManager.jump` (`manager.py` lines 1205–1290). -/
def jumpOp (env : Env) (s : MemState) (commitHash : String) :
    (MemStatus × String) × MemState :=
  match resolveRef s commitHash with
  | none => ((.UNKNOWN_ERROR, ""), s)
  | some full =>
    match s.branchesFile with
    | none => ((.UNKNOWN_ERROR, ""), s)
    | some b =>
      -- union of every file ever tracked on any branch (absolute paths)
      let allTracked : List String :=
        (b.branches.map (·.2)).flatMap (fun tip =>
          (ancestry s tip).flatMap (fun c => commitFilesAbs env s c))
      -- verify the archive can be created BEFORE deleting files
      match archiveOf s full with
      | none => ((.UNKNOWN_ERROR, ""), s)
      | some tarFiles =>
        let snapshotFiles := commitFilesRel s full
        let deleted := jumpDeletionSet env.root allTracked snapshotFiles
          s.workspace
        let ws₁ := s.workspace.filter (fun e =>
          !(deleted.contains (absOf env.root e.1)))
        -- extract the archive over the working directory
        let ws₂ := tarFiles.foldl (fun w rc => aset w rc.1 rc.2) ws₁
        let prevBranch := b.current
        let prevHead := prevBranch.bind (fun pb => alookup b.branches pb)
        let newBranch := generateJumpBranchName b.branches
        let b₁ := { b with
          branches := aset b.branches newBranch full,
          current := some newBranch }
        let b₂ :=
          match prevHead with
          | some ph =>
            if ph ≠ full then
              let jf := aset b₁.jumpFrom newBranch ⟨ph, full, prevBranch⟩
              { b₁ with jumpFrom := jf }
            else b₁
          | none => b₁
        let s₁ := { s with
          workspace := ws₂,
          branchesFile := some b₂,
          headRef := applyRef s.headRef full }
        let s₂ :=
          match prevHead with
          | some ph =>
            if ph ≠ full then recordJump env s₁ ph full prevBranch newBranch
            else s₁
          | none => s₁
        ((.SUCCESS, newBranch), s₂)

/-! ## The pending-writes queue -/

/-- `MemovManager.sync_to_vectordb`.  `deliver` abstracts
`vectordb.insert_splitted` (an exception = `false`).  The middle component
is a ghost trace: the entries handed to `deliver`, in order — the loop
visits each queued entry exactly once, with no per-entry retry. -/
def syncToVectorDB (deliver : PendingWrite → Bool) (s : MemState) :
    (Nat × Nat) × List PendingWrite × MemState :=
  if s.pendingWrites.isEmpty then ((0, 0), [], s)
  else
    let counts := s.pendingWrites.foldl
      (fun (a : Nat × Nat) e => if deliver e then (a.1 + 1, a.2) else (a.1, a.2 + 1))
      (0, 0)
    (counts, s.pendingWrites,
      { s with pendingWrites := [], pendingFileOnDisk := false })

/-- `MemovManager.get_pending_writes_count`. -/
def getPendingWritesCount (s : MemState) : Nat := s.pendingWrites.length

/-! ## Structured diff extraction -/

/-- `MemovManager._get_commit_diff_by_file`.  With a parent the result is
`git diff parent commit` parsed by `_parse_diff_by_file`, abstracted as
`env.parsedDiff`; with no parent every file of the tree is synthesized as a
single added hunk from its `git show` content. -/
def getCommitDiffByFile (env : Env) (s : MemState) (commitHash : String) :
    List (Path × FileDiff) :=
  match resolveRef s commitHash with
  | none => []
  | some full =>
    match getCommit s full with
    | none => []
    | some obj =>
      match obj.parent with
      | some par => env.parsedDiff par full
      | none =>
        (flattenTree obj.tree).filterMap (fun e =>
          (alookup s.blobs e.2).map (fun content =>
            (e.1,
              { status := "added",
                hunks := [{
                  header := "@@ -0,0 +1," ++ Nat.repr content.length ++ " @@",
                  oldStart := 0, oldCount := 0,
                  newStart := 1, newCount := content.length,
                  lines := content.map (fun l => ⟨"add", l⟩) }] })))




/-- Frame property of a write operation on the pending-writes queue: either
untouched, or extended by exactly one entry that records no parent hash. -/
def pendingParentNoneFrame (s s' : MemState) : Prop :=
  s'.pendingWrites = s.pendingWrites
  ∨ ∃ e, s'.pendingWrites = s.pendingWrites ++ [e] ∧ e.parentHash = none

/-! ## Concrete test fixtures (used by witnesses and counterexamples) -/

/-- A concrete environment: project root `/p`, an injective-on-test-data
content hash, a fixed fresh commit id, an empty ignore ruleset. -/
def envT : Env :=
  { root := "/p", hashC := fun c => "h(" ++ joinWith "|" c ++ ")",
    commitIdOf := fun _ _ _ => "newc", mign := fun _ => false,
    now := "2024-01-01T00:00:00", confirmRemove := true,
    parsedDiff := fun _ _ => [] }

/-- A two-file tree: `a.txt` and `d/e.txt`. -/
def treeT : List (String × TreeNode) :=
  [("a.txt", .blob "h(hello)"), ("d", .dir [("e.txt", .blob "h(world)")])]

/-- A state with one commit `c1` of `treeT` on branch `main`, both files on
disk, `d/e.txt`'s on-disk content drifted. -/
def sT : MemState :=
  { commits := [("c1", ⟨none, treeT, []⟩)],
    blobs := [("h(hello)", ["hello"]), ("h(world)", ["world"])],
    headRef := some "c1", mainRef := none,
    branchesFile := some ⟨some "main", [("main", "c1")], []⟩,
    workspace := [("a.txt", ["hello"]), ("d/e.txt", ["world, edited"])],
    pendingWrites := [], pendingFileOnDisk := false, jumpHistory := [] }


/-- A state whose single tracked file `a.txt` has been deleted from disk:
full-mode `snapshot` then fails to hash it and `write_blob_to_bare_repo`
returns the empty commit hash without raising. -/
def sC9 : MemState :=
  { commits := [("c1", ⟨none, [("a.txt", .blob "h(hello)")], []⟩)],
    blobs := [("h(hello)", ["hello"])],
    headRef := some "c1", mainRef := none,
    branchesFile := some ⟨some "main", [("main", "c1")], []⟩,
    workspace := [],
    pendingWrites := [], pendingFileOnDisk := false, jumpHistory := [] }

/-! ## Library lemmas for the embedding -/

section AssocLemmas

variable {α : Type}

theorem alookup_aset_self (l : List (String × α)) (k : String) (v : α) :
    alookup (aset l k v) k = some v := by
  unfold alookup aset
  by_cases h : l.any (fun e => e.1 == k)
  · simp only [h, if_true]
    induction l with
    | nil => simp at h
    | cons e es ih =>
      simp only [List.map_cons, List.find?]
      by_cases he : e.1 == k
      · simp [he]
      · simp only [he, if_neg, Bool.false_eq_true, not_false_eq_true]
        simp only [List.any_cons, he, Bool.false_or] at h
        simpa [he] using ih h
  · simp only [h, if_false]
    induction l with
    | nil => simp [List.find?]
    | cons e es ih =>
      simp only [List.any_cons, Bool.or_eq_true, not_or] at h
      simp only [List.cons_append, List.find?]
      have he : (e.1 == k) = false := by
        cases hb : (e.1 == k) <;> simp_all
      simp only [he]
      exact ih h.2

theorem alookup_aset_ne (l : List (String × α)) (k k' : String) (v : α)
    (hne : k' ≠ k) : alookup (aset l k v) k' = alookup l k' := by
  unfold alookup aset
  by_cases h : l.any (fun e => e.1 == k)
  · simp only [h, if_true]
    induction l with
    | nil => simp
    | cons e es ih =>
      simp only [List.map_cons, List.find?]
      by_cases he : e.1 == k
      · have hek : e.1 = k := by simpa using he
        have : (k == k') = false := by
          simp [beq_iff_eq]; exact fun hkk => hne hkk.symm
        have h2 : (e.1 == k') = false := by
          simp [hek, beq_iff_eq]; exact fun hkk => hne hkk.symm
        simp only [he, if_true, this, h2]
        by_cases hes : es.any (fun e => e.1 == k)
        · exact ih hes
        · -- tail has no k; mapping over it is identity on the `==  k'` search
          clear ih h
          induction es with
          | nil => simp
          | cons f fs ih2 =>
            simp only [List.any_cons, Bool.or_eq_true, not_or] at hes
            have hf : (f.1 == k) = false := by
              cases hb : (f.1 == k) <;> simp_all
            simp only [List.map_cons, List.find?, hf, if_neg, Bool.false_eq_true,
              not_false_eq_true]
            by_cases hf' : f.1 == k'
            · simp [hf']
            · have hf'' : (f.1 == k') = false := by
                cases hb : (f.1 == k') <;> simp_all
              simp only [hf'']
              exact ih2 hes.2
      · have he' : (e.1 == k) = false := by
          cases hb : (e.1 == k) <;> simp_all
        simp only [he', if_neg, Bool.false_eq_true, not_false_eq_true]
        simp only [List.any_cons, he', Bool.false_or] at h
        by_cases hf' : e.1 == k'
        · simp [hf']
        · have hf'' : (e.1 == k') = false := by
            cases hb : (e.1 == k') <;> simp_all
          simp only [hf'']
          exact ih h
  · simp only [h, if_false]
    induction l with
    | nil =>
      simp only [List.nil_append, List.find?]
      have : (k == k') = false := by
        simp [beq_iff_eq]; exact fun hkk => hne hkk.symm
      simp [this]
    | cons e es ih =>
      simp only [List.any_cons, Bool.or_eq_true, not_or] at h
      simp only [List.cons_append, List.find?]
      by_cases hf' : e.1 == k'
      · simp [hf']
      · have hf'' : (e.1 == k') = false := by
          cases hb : (e.1 == k') <;> simp_all
        simp only [hf'']
        exact ih h.2

theorem akeys_aset_fresh (l : List (String × α)) (k : String) (v : α)
    (h : ¬ l.any (fun e => e.1 == k)) :
    akeys (aset l k v) = akeys l ++ [k] := by
  unfold aset akeys
  simp [h]

theorem alookup_isSome_iff_any (l : List (String × α)) (k : String) :
    (alookup l k).isSome = l.any (fun e => e.1 == k) := by
  unfold alookup
  induction l with
  | nil => simp
  | cons e es ih =>
    simp only [List.find?, List.any_cons]
    by_cases he : e.1 == k
    · simp [he]
    · have he' : (e.1 == k) = false := by
        cases hb : (e.1 == k) <;> simp_all
      simp only [he', Bool.false_or]
      exact ih

end AssocLemmas

theorem nonConflict_symm {p q : List String} (h : nonConflict p q) :
    nonConflict q p := ⟨h.2, h.1⟩

theorem lookupParts_nil : ∀ (q : List String), lookupParts [] q = none
  | [] => rfl
  | [_] => by simp [lookupParts, alookup]
  | _ :: _ :: _ => by simp [lookupParts, alookup]

theorem insertParts_lookup_self :
    ∀ (p : List String) (t t' : List (String × TreeNode)) (b : BlobId),
      insertParts t p b = some t' → lookupParts t' p = some b
  | [], t, t', b => by simp [insertParts]
  | [name], t, t', b => by
    simp only [insertParts, Option.some_inj]
    rintro rfl
    simp [lookupParts, alookup_aset_self]
  | part :: rest₁ :: rest₂, t, t', b => by
    simp only [insertParts]
    cases h : alookup t part with
    | none =>
      simp only [Option.map_eq_some']
      rintro ⟨cs', hcs', rfl⟩
      have := insertParts_lookup_self (rest₁ :: rest₂) [] cs' b hcs'
      simp [lookupParts, alookup_aset_self, this]
    | some node =>
      cases node with
      | blob _ => simp
      | dir cs =>
        simp only [Option.map_eq_some']
        rintro ⟨cs', hcs', rfl⟩
        have := insertParts_lookup_self (rest₁ :: rest₂) cs cs' b hcs'
        simp [lookupParts, alookup_aset_self, this]

theorem insertParts_lookup_other :
    ∀ (p q : List String) (t t' : List (String × TreeNode)) (b : BlobId),
      insertParts t p b = some t' → nonConflict p q →
      lookupParts t' q = lookupParts t q
  | [], q, t, t', b => by simp [insertParts]
  | [name], q, t, t', b => by
    simp only [insertParts, Option.some_inj]
    rintro rfl hnc
    match q with
    | [] => rfl
    | [qn] =>
      have hne : qn ≠ name := by
        rintro rfl
        exact hnc.1 (List.prefix_refl _)
      simp [lookupParts, alookup_aset_ne _ _ _ _ hne]
    | qh :: q₁ :: q₂ =>
      have hne : qh ≠ name := by
        rintro rfl
        exact hnc.1 ⟨q₁ :: q₂, rfl⟩
      simp [lookupParts, alookup_aset_ne _ _ _ _ hne]
  | ph :: p₁ :: p₂, q, t, t', b => by
    simp only [insertParts]
    have main :
        ∀ (sub cs' : List (String × TreeNode)),
          insertParts sub (p₁ :: p₂) b = some cs' →
          (alookup t ph = none ∧ sub = []) ∨ alookup t ph = some (.dir sub) →
          nonConflict (ph :: p₁ :: p₂) q →
          lookupParts (aset t ph (.dir cs')) q = lookupParts t q := by
      intro sub cs' hcs' hsub hnc
      match q with
      | [] => rfl
      | [qn] =>
        by_cases hq : qn = ph
        · subst hq
          exact absurd ⟨p₁ :: p₂, rfl⟩ hnc.2
        · simp [lookupParts, alookup_aset_ne _ _ _ _ hq]
      | qh :: q₁ :: q₂ =>
        by_cases hq : qh = ph
        · subst hq
          have hnc' : nonConflict (p₁ :: p₂) (q₁ :: q₂) := by
            constructor
            · intro hpre; exact hnc.1 (List.cons_prefix_cons.2 ⟨rfl, hpre⟩)
            · intro hpre; exact hnc.2 (List.cons_prefix_cons.2 ⟨rfl, hpre⟩)
          have hrec := insertParts_lookup_other (p₁ :: p₂) (q₁ :: q₂) sub cs' b hcs' hnc'
          rcases hsub with ⟨hnone, rfl⟩ | hdir
          · simp only [lookupParts, alookup_aset_self, hnone]
            rw [hrec]
            exact lookupParts_nil _
          · simp only [lookupParts, alookup_aset_self, hdir]
            exact hrec
        · simp [lookupParts, alookup_aset_ne _ _ _ _ hq]
    cases h : alookup t ph with
    | none =>
      simp only [Option.map_eq_some']
      rintro ⟨cs', hcs', rfl⟩ hnc
      exact main [] cs' hcs' (Or.inl ⟨h, rfl⟩) hnc
    | some node =>
      cases node with
      | blob _ => simp
      | dir cs =>
        simp only [Option.map_eq_some']
        rintro ⟨cs', hcs', rfl⟩ hnc
        exact main cs cs' hcs' (Or.inr h) hnc

/-- Frame property of the tree-build fold: paths that conflict with none of
the inserted entries look up unchanged. -/
theorem buildFold_preserve (q : List String) :
    ∀ (entries : List (Path × BlobId)) (t₀ t : List (String × TreeNode)),
      List.foldlM (fun t e => insertParts t (splitPathParts e.1) e.2) t₀ entries
        = some t →
      (∀ e ∈ entries, nonConflict (splitPathParts e.1) q) →
      lookupParts t q = lookupParts t₀ q
  | [], t₀, t => by
    simp only [List.foldlM_nil, Option.pure_def, Option.some_inj]
    rintro rfl _
    rfl
  | e :: es, t₀, t => by
    simp only [List.foldlM_cons, Option.bind_eq_bind, Option.bind_eq_some]
    rintro ⟨t₁, ht₁, hrest⟩ hnc
    have h₁ := insertParts_lookup_other (splitPathParts e.1) q t₀ t₁ e.2 ht₁
      (hnc e (by simp))
    have h₂ := buildFold_preserve q es t₁ t hrest
      (fun f hf => hnc f (List.mem_cons_of_mem _ hf))
    rw [h₂, h₁]

/-- Correctness of the tree-build fold: with pairwise non-conflicting
entries, every entry's path looks up to its blob id. -/
theorem buildFold_mem_lookup (B : Path) (hB : BlobId) :
    ∀ (entries : List (Path × BlobId)) (t₀ t : List (String × TreeNode)),
      List.foldlM (fun t e => insertParts t (splitPathParts e.1) e.2) t₀ entries
        = some t →
      entries.Pairwise
        (fun e f => nonConflict (splitPathParts e.1) (splitPathParts f.1)) →
      (B, hB) ∈ entries →
      lookupParts t (splitPathParts B) = some hB
  | [], t₀, t => by simp
  | e :: es, t₀, t => by
    simp only [List.foldlM_cons, Option.bind_eq_bind, Option.bind_eq_some]
    rintro ⟨t₁, ht₁, hrest⟩ hpw hmem
    rcases List.mem_cons.1 hmem with heq | htail
    · subst heq
      have hself := insertParts_lookup_self (splitPathParts B) t₀ t₁ hB ht₁
      have hpres := buildFold_preserve (splitPathParts B) es t₁ t hrest
        (fun f hf => nonConflict_symm ((List.pairwise_cons.1 hpw).1 f hf))
      rw [hpres, hself]
    · exact buildFold_mem_lookup B hB es t₁ t hrest (List.pairwise_cons.1 hpw).2 htail

theorem buildTreeStruct_lookup {entries : List (Path × BlobId)}
    {t : List (String × TreeNode)} {B : Path} {hB : BlobId}
    (hbuild : buildTreeStruct entries = some t)
    (hpw : entries.Pairwise
      (fun e f => nonConflict (splitPathParts e.1) (splitPathParts f.1)))
    (hmem : (B, hB) ∈ entries) :
    lookupParts t (splitPathParts B) = some hB :=
  buildFold_mem_lookup B hB entries [] t hbuild hpw hmem

theorem digitVal_digitChar {d : Nat} (h : d < 10) :
    digitVal (Nat.digitChar d) = d := by
  interval_cases d <;> rfl

theorem toDigitsCore_val :
    ∀ (f n : Nat) (l : List Char), n < 10 ^ f →
      digitsVal (Nat.toDigitsCore 10 f n l) = n * 10 ^ l.length + digitsVal l
  | 0, n, l => by
    intro h
    simp only [pow_zero, Nat.lt_one_iff] at h
    subst h
    simp [Nat.toDigitsCore]
  | f + 1, n, l => by
    intro h
    simp only [Nat.toDigitsCore]
    by_cases h0 : n / 10 = 0
    · have hn : n < 10 := by omega
      simp only [h0, if_true, digitsVal]
      rw [digitVal_digitChar (Nat.mod_lt _ (by omega)), Nat.mod_eq_of_lt hn]
    · simp only [h0, if_false]
      have hdiv : n / 10 < 10 ^ f := by
        have : n < 10 ^ f * 10 := by
          rw [← pow_succ]; exact h
        omega
      rw [toDigitsCore_val f (n / 10) (Nat.digitChar (n % 10) :: l) hdiv]
      simp only [List.length_cons, digitsVal]
      rw [digitVal_digitChar (Nat.mod_lt _ (by omega))]
      have hsplit : n = 10 * (n / 10) + n % 10 := (Nat.div_add_mod n 10).symm
      calc n / 10 * 10 ^ (l.length + 1) + (n % 10 * 10 ^ l.length + digitsVal l)
          = (10 * (n / 10) + n % 10) * 10 ^ l.length + digitsVal l := by ring
        _ = n * 10 ^ l.length + digitsVal l := by rw [← hsplit]

theorem digitsVal_toDigits (n : Nat) : digitsVal (Nat.toDigits 10 n) = n := by
  unfold Nat.toDigits
  have h : n < 10 ^ (n + 1) :=
    lt_of_lt_of_le (Nat.lt_pow_self (by norm_num) n)
      (Nat.pow_le_pow_right (by norm_num) (Nat.le_succ n))
  rw [toDigitsCore_val (n + 1) n [] h]
  simp [digitsVal]

theorem natRepr_injective : Function.Injective Nat.repr := by
  intro a b h
  unfold Nat.repr at h
  have hdata := congrArg String.data h
  simp only [List.asString] at hdata
  have hlist : Nat.toDigits 10 a = Nat.toDigits 10 b := hdata
  have := congrArg digitsVal hlist
  rwa [digitsVal_toDigits, digitsVal_toDigits] at this

theorem jumpNm_injective : Function.Injective jumpNm := by
  intro a b h
  apply natRepr_injective
  have hdata := congrArg String.data h
  simp only [jumpNm, String.data_append] at hdata
  have := List.append_cancel_left hdata
  exact String.ext this

theorem jumpNameLoop_ge (keys : List String) :
    ∀ (fuel i : Nat), i ≤ jumpNameLoop keys fuel i
  | 0, i => le_refl i
  | fuel + 1, i => by
    simp only [jumpNameLoop]
    by_cases h : jumpNm i ∈ keys
    · simp only [h, if_true]
      exact le_trans (Nat.le_succ i) (jumpNameLoop_ge keys fuel (i + 1))
    · simp [h]

theorem jumpNameLoop_min (keys : List String) :
    ∀ (fuel i m : Nat), i ≤ m → m < jumpNameLoop keys fuel i →
      jumpNm m ∈ keys
  | 0, i, m => by
    intro him hlt
    simp only [jumpNameLoop] at hlt
    omega
  | fuel + 1, i, m => by
    intro him hlt
    simp only [jumpNameLoop] at hlt
    by_cases h : jumpNm i ∈ keys
    · simp only [h, if_true] at hlt
      rcases Nat.eq_or_lt_of_le him with rfl | hlt'
      · exact h
      · exact jumpNameLoop_min keys fuel (i + 1) m hlt' hlt
    · simp only [h, if_false] at hlt
      omega

theorem jumpNameLoop_free (keys : List String) :
    ∀ (fuel i : Nat),
      (∃ j, i ≤ j ∧ j < i + fuel ∧ jumpNm j ∉ keys) →
      jumpNm (jumpNameLoop keys fuel i) ∉ keys
  | 0, i => by
    rintro ⟨j, hij, hlt, _⟩
    omega
  | fuel + 1, i => by
    rintro ⟨j, hij, hlt, hfree⟩
    simp only [jumpNameLoop]
    by_cases h : jumpNm i ∈ keys
    · simp only [h, if_true]
      refine jumpNameLoop_free keys fuel (i + 1) ⟨j, ?_, by omega, hfree⟩
      rcases Nat.eq_or_lt_of_le hij with rfl | h'
      · exact absurd h hfree
      · exact h'
    · simp only [if_neg h]
      exact h

/-- Pigeonhole: among the first `keys.length + 1` candidate names, one is
not a key. -/
theorem exists_free_jumpNm (keys : List String) :
    ∃ j, 1 ≤ j ∧ j < 1 + (keys.length + 1) ∧ jumpNm j ∉ keys := by
  by_contra hall
  push_neg at hall
  have hsub : (Finset.Icc 1 (keys.length + 1)).image jumpNm ⊆ keys.toFinset := by
    intro x hx
    rcases Finset.mem_image.1 hx with ⟨j, hj, rfl⟩
    rcases Finset.mem_Icc.1 hj with ⟨h1, h2⟩
    exact List.mem_toFinset.2 (hall j h1 (by omega))
  have hcard : keys.length + 1 ≤ keys.toFinset.card := by
    calc keys.length + 1 = (Finset.Icc 1 (keys.length + 1)).card := by
          rw [Nat.card_Icc]; omega
        _ = ((Finset.Icc 1 (keys.length + 1)).image jumpNm).card :=
          (Finset.card_image_of_injective _ jumpNm_injective).symm
        _ ≤ keys.toFinset.card := Finset.card_le_card hsub
  have := List.toFinset_card_le keys
  omega

theorem generateJumpBranchName_not_mem (branches : List (String × CommitId)) :
    generateJumpBranchName branches ∉ akeys branches := by
  unfold generateJumpBranchName generateJumpN
  apply jumpNameLoop_free
  have := exists_free_jumpNm (akeys branches)
  simpa [akeys] using this

theorem generateJumpBranchName_min (branches : List (String × CommitId))
    (m : Nat) (h1 : 1 ≤ m) (hlt : m < generateJumpN branches) :
    jumpNm m ∈ akeys branches :=
  jumpNameLoop_min _ _ 1 m h1 hlt

theorem generateJumpN_pos (branches : List (String × CommitId)) :
    1 ≤ generateJumpN branches :=
  jumpNameLoop_ge _ _ 1


theorem any_beq_iff_mem_akeys {α : Type} (l : List (String × α)) (k : String) :
    (l.any (fun e => e.1 == k)) = true ↔ k ∈ akeys l := by
  induction l with
  | nil => simp [akeys]
  | cons e es ih =>
    simp only [List.any_cons, Bool.or_eq_true, akeys, List.map_cons,
      List.mem_cons, beq_iff_eq] at *
    constructor
    · rintro (h | h)
      · exact Or.inl h.symm
      · exact Or.inr (ih.1 h)
    · rintro (h | h)
      · exact Or.inl h.symm
      · exact Or.inr (ih.2 h)

theorem mem_akeys_of_alookup {α : Type} {l : List (String × α)} {k : String}
    {v : α} (h : alookup l k = some v) : k ∈ akeys l := by
  have : (alookup l k).isSome := by simp [h]
  rw [alookup_isSome_iff_any] at this
  exact (any_beq_iff_mem_akeys l k).1 this



theorem validateAndFixBranches_pendingWrites (s : MemState) :
    (validateAndFixBranches s).pendingWrites = s.pendingWrites := by
  cases h : s.branchesFile <;> simp [validateAndFixBranches, h]

theorem validateAndFixBranches_headRef (s : MemState) :
    (validateAndFixBranches s).headRef = s.headRef := by
  cases h : s.branchesFile <;> simp [validateAndFixBranches, h]

theorem writeBlobs_fst_eq (env : Env) :
    ∀ (paths : List Path) (s : MemState) (acc : List (Path × BlobId)),
      (paths.foldl
        (fun acc p =>
          match alookup acc.1.workspace p with
          | none => acc
          | some c =>
            let h := env.hashC c
            ({ acc.1 with blobs := aset acc.1.blobs h c }, acc.2 ++ [(p, h)]))
        (s, acc)).1
      = { s with blobs := (paths.foldl
        (fun acc p =>
          match alookup acc.1.workspace p with
          | none => acc
          | some c =>
            let h := env.hashC c
            ({ acc.1 with blobs := aset acc.1.blobs h c }, acc.2 ++ [(p, h)]))
        (s, acc)).1.blobs }
  | [], s, acc => by simp
  | p :: ps, s, acc => by
    simp only [List.foldl_cons]
    cases h : alookup s.workspace p with
    | none =>
      simp only [h]
      exact writeBlobs_fst_eq env ps s acc
    | some c =>
      simp only [h]
      have := writeBlobs_fst_eq env ps { s with blobs := aset s.blobs (env.hashC c) c }
        (acc ++ [(p, env.hashC c)])
      simpa using this

theorem writeBlobs_pendingWrites (env : Env) (s : MemState) (paths : List Path) :
    (writeBlobs env s paths).1.pendingWrites = s.pendingWrites := by
  unfold writeBlobs
  rw [writeBlobs_fst_eq env paths s []]

theorem writeBlobs_headRef (env : Env) (s : MemState) (paths : List Path) :
    (writeBlobs env s paths).1.headRef = s.headRef := by
  unfold writeBlobs
  rw [writeBlobs_fst_eq env paths s []]

theorem commitTree_pendingWrites (env : Env) (s : MemState)
    (tree : List (String × TreeNode)) (msg : Msg) (parent : Option CommitId) :
    (commitTree env s tree msg parent).1.pendingWrites = s.pendingWrites := by
  unfold commitTree
  by_cases h : env.commitIdOf tree parent msg = "" <;> simp [h]

theorem commitTree_headRef (env : Env) (s : MemState)
    (tree : List (String × TreeNode)) (msg : Msg) (parent : Option CommitId) :
    (commitTree env s tree msg parent).1.headRef = s.headRef := by
  unfold commitTree
  by_cases h : env.commitIdOf tree parent msg = "" <;> simp [h]

theorem writeBlobToBareRepo_pendingWrites (env : Env) (s : MemState)
    (files : List Path) (msg : Msg) :
    (writeBlobToBareRepo env s files msg).1.pendingWrites = s.pendingWrites := by
  unfold writeBlobToBareRepo
  by_cases hempty : files.isEmpty
  · simp [hempty]
  · simp only [hempty, Bool.false_eq_true, if_false]
    cases hm : files.mapM
        (fun p => (alookup (writeBlobs env s files).2 p).map (fun b => (p, b))) with
    | none => simp [hm, writeBlobs_pendingWrites]
    | some entries =>
      simp only [hm]
      cases hb : buildTreeStruct entries with
      | none => simp [hb, writeBlobs_pendingWrites]
      | some tree =>
        simp only [hb, commitTree_pendingWrites]
        exact writeBlobs_pendingWrites env s files

theorem updateBranch_pendingWrites (s : MemState) (c : CommitId) (r : Bool) :
    (updateBranch s c r).pendingWrites = s.pendingWrites := by
  unfold updateBranch
  cases s.branchesFile <;> rfl

theorem updateBranch_headRef (s : MemState) (c : CommitId) (r : Bool) :
    (updateBranch s c r).headRef = applyRef s.headRef c := by
  unfold updateBranch
  cases s.branchesFile <;> rfl

/-- The common tail of every successful write operation: `_update_branch`
with a non-empty commit id followed by `_add_to_pending_writes` appends one
entry with no parent hash, because the head read back equals the new
commit. -/
theorem updateBranch_addPending_frame (env : Env) (sb s₁ : MemState)
    (c : CommitId) (hc : c ≠ "") (hpw : s₁.pendingWrites = sb.pendingWrites)
    (op : String) (pr re ap : Option String) (bu : Bool) (files : List String) :
    pendingParentNoneFrame sb
      (addToPendingWrites env (updateBranch s₁ c false) op c pr re ap bu files) := by
  have hhead : (updateBranch s₁ c false).headRef = some c := by
    rw [updateBranch_headRef]
    unfold applyRef
    simp [hc]
  right
  unfold addToPendingWrites
  rw [hhead]
  simp only [ne_eq, not_true_eq_false, if_false, ite_self]
  exact ⟨_, by rw [updateBranch_pendingWrites, hpw], rfl⟩



theorem commitTree_branchesFile (env : Env) (s : MemState)
    (tree : List (String × TreeNode)) (msg : Msg) (parent : Option CommitId) :
    (commitTree env s tree msg parent).1.branchesFile = s.branchesFile := by
  unfold commitTree
  by_cases h : env.commitIdOf tree parent msg = "" <;> simp [h]

theorem writeBlobs_branchesFile (env : Env) (s : MemState) (paths : List Path) :
    (writeBlobs env s paths).1.branchesFile = s.branchesFile := by
  unfold writeBlobs
  rw [writeBlobs_fst_eq env paths s []]

theorem writeBlobToBareRepo_branchesFile (env : Env) (s : MemState)
    (files : List Path) (msg : Msg) :
    (writeBlobToBareRepo env s files msg).1.branchesFile = s.branchesFile := by
  unfold writeBlobToBareRepo
  by_cases hempty : files.isEmpty
  · simp [hempty]
  · simp only [hempty, Bool.false_eq_true, if_false]
    cases hm : files.mapM
        (fun p => (alookup (writeBlobs env s files).2 p).map (fun b => (p, b))) with
    | none => simp [hm, writeBlobs_branchesFile]
    | some entries =>
      simp only [hm]
      cases hb : buildTreeStruct entries with
      | none => simp [hb, writeBlobs_branchesFile]
      | some tree =>
        simp only [hb, commitTree_branchesFile]
        exact writeBlobs_branchesFile env s files

theorem writeBlobToBareRepo_headRef (env : Env) (s : MemState)
    (files : List Path) (msg : Msg) :
    (writeBlobToBareRepo env s files msg).1.headRef = s.headRef := by
  unfold writeBlobToBareRepo
  by_cases hempty : files.isEmpty
  · simp [hempty]
  · simp only [hempty, Bool.false_eq_true, if_false]
    cases hm : files.mapM
        (fun p => (alookup (writeBlobs env s files).2 p).map (fun b => (p, b))) with
    | none => simp [hm, writeBlobs_headRef]
    | some entries =>
      simp only [hm]
      cases hb : buildTreeStruct entries with
      | none => simp [hb, writeBlobs_headRef]
      | some tree =>
        simp only [hb, commitTree_headRef]
        exact writeBlobs_headRef env s files



theorem isPrefixOf_append_of_prefix {l l' : List Char} (x : List Char)
    (h : l <+: l') : l.isPrefixOf (l' ++ x) = true := by
  rw [List.isPrefixOf_iff_prefix]
  exact h.trans (List.prefix_append _ _)

theorem not_isPrefixOf_append_of_head_ne (l m x : List Char)
    (hl : l ≠ []) (hm : m ≠ []) (hh : l.head? ≠ m.head?) :
    l.isPrefixOf (m ++ x) = false := by
  cases l with
  | nil => exact absurd rfl hl
  | cons a as =>
    cases m with
    | nil => exact absurd rfl hm
    | cons b bs =>
      simp only [List.head?, ne_eq, Option.some_inj] at hh
      rw [List.cons_append, Bool.eq_false_iff]
      intro hpre
      rw [List.isPrefixOf_iff_prefix, List.cons_prefix_cons] at hpre
      exact hh hpre.1

theorem lineLabel_prompt (x : List Char) :
    lineLabel ("Prompt: ".data ++ x) = some "Prompt:".data := by
  unfold lineLabel msgLabels
  rw [List.find?_cons_of_pos]
  · exact isPrefixOf_append_of_prefix x (by decide)

theorem lineLabel_response (x : List Char) :
    lineLabel ("Response: ".data ++ x) = some "Response:".data := by
  unfold lineLabel msgLabels
  rw [List.find?_cons_of_neg, List.find?_cons_of_pos]
  · exact isPrefixOf_append_of_prefix x (by decide)
  · rw [not_isPrefixOf_append_of_head_ne "Prompt:".data "Response: ".data x
      (by decide) (by decide) (by decide)]
    simp

theorem lineLabel_agentPlan (x : List Char) :
    lineLabel ("Agent Plan: ".data ++ x) = some "Agent Plan:".data := by
  unfold lineLabel msgLabels
  rw [List.find?_cons_of_neg, List.find?_cons_of_neg, List.find?_cons_of_pos]
  · exact isPrefixOf_append_of_prefix x (by decide)
  · rw [not_isPrefixOf_append_of_head_ne "Response:".data "Agent Plan: ".data x
      (by decide) (by decide) (by decide)]
    simp
  · rw [not_isPrefixOf_append_of_head_ne "Prompt:".data "Agent Plan: ".data x
      (by decide) (by decide) (by decide)]
    simp

theorem lineLabel_source (x : List Char) :
    lineLabel ("Source: ".data ++ x) = some "Source:".data := by
  unfold lineLabel msgLabels
  rw [List.find?_cons_of_neg, List.find?_cons_of_neg, List.find?_cons_of_neg, List.find?_cons_of_pos]
  · exact isPrefixOf_append_of_prefix x (by decide)
  · rw [not_isPrefixOf_append_of_head_ne "Agent Plan:".data "Source: ".data x
      (by decide) (by decide) (by decide)]
    simp
  · rw [not_isPrefixOf_append_of_head_ne "Response:".data "Source: ".data x
      (by decide) (by decide) (by decide)]
    simp
  · rw [not_isPrefixOf_append_of_head_ne "Prompt:".data "Source: ".data x
      (by decide) (by decide) (by decide)]
    simp

theorem lineLabel_files (x : List Char) :
    lineLabel ("Files: ".data ++ x) = some "Files:".data := by
  unfold lineLabel msgLabels
  rw [List.find?_cons_of_neg, List.find?_cons_of_neg, List.find?_cons_of_neg, List.find?_cons_of_neg, List.find?_cons_of_pos]
  · exact isPrefixOf_append_of_prefix x (by decide)
  · rw [not_isPrefixOf_append_of_head_ne "Source:".data "Files: ".data x
      (by decide) (by decide) (by decide)]
    simp
  · rw [not_isPrefixOf_append_of_head_ne "Agent Plan:".data "Files: ".data x
      (by decide) (by decide) (by decide)]
    simp
  · rw [not_isPrefixOf_append_of_head_ne "Response:".data "Files: ".data x
      (by decide) (by decide) (by decide)]
    simp
  · rw [not_isPrefixOf_append_of_head_ne "Prompt:".data "Files: ".data x
      (by decide) (by decide) (by decide)]
    simp

theorem fieldOrder_labeled_append (lab : String) (labRes : List Char)
    (v : List MsgLine) (rest : Msg)
    (hlab : ∀ x, lineLabel (lab.data ++ x) = some labRes)
    (hv : labelFree v) :
    fieldOrder (labeled lab v ++ rest) = labRes :: fieldOrder rest := by
  unfold fieldOrder
  rw [List.filterMap_append]
  have hthis : (labeled lab v).filterMap lineLabel = [labRes] := by
    cases v with
    | nil =>
      have h0 := hlab []
      rw [List.append_nil] at h0
      simp [labeled, h0]
    | cons x xs =>
      have hxs : xs.filterMap lineLabel = [] :=
        List.filterMap_eq_nil_iff.2
          (fun l hl => hv l (List.mem_cons_of_mem _ hl))
      simp [labeled, hlab x, hxs]
  rw [hthis]
  rfl

theorem labelFree_srcText (bu : Bool) : labelFree (linesOfStr (srcText bu)) := by
  cases bu <;> decide



theorem fieldOrder_cons_none (l : MsgLine) (m : Msg)
    (h : lineLabel l = none) : fieldOrder (l :: m) = fieldOrder m := by
  simp [fieldOrder, List.filterMap_cons, h]

theorem fieldOrder_labeled (lab : String) (labRes : List Char)
    (v : List MsgLine)
    (hlab : ∀ x, lineLabel (lab.data ++ x) = some labRes)
    (hv : labelFree v) :
    fieldOrder (labeled lab v) = [labRes] := by
  have h := fieldOrder_labeled_append lab labRes v [] hlab hv
  rw [List.append_nil] at h
  rw [h]
  rfl


/-! ## Claims -/

/-- C5: for a file `f` already present in the current tip's tree (and
unchanged on disk), calling `track` on `[f]` again is a no-op that returns
`SUCCESS` and leaves the whole state — in particular the tip commit —
unchanged: the already-tracked path is subtracted from the candidate set
and, nothing remaining, no commit is created. -/
theorem track_already_tracked_noop (env : Env) (s : MemState) (f : Path)
    (h : CommitId) (prompt response : Option String) (byUser : Bool)
    (hhead : s.headRef = some h)
    (hf : f ∈ commitFilesRel s h)
    (hclean : (alookup s.workspace f).map env.hashC
        = alookup (commitBlobsRel s h) f) :
    trackOp env s [f] prompt response byUser = (.SUCCESS, s) := by
  unfold trackOp
  have hnew : filterNewFilesFiles s.workspace env.mign [f]
      (some (commitFilesRel s h)) = [] := by
    unfold filterNewFilesFiles filterPred
    simp [hf]
  simp [hhead, hnew]

/-- Witness for C5 at the concrete fixture state. -/
theorem track_already_tracked_noop_witness :
    trackOp envT sT ["a.txt"] (some "p") (some "r") false = (.SUCCESS, sT) :=
  track_already_tracked_noop envT sT "a.txt" "c1" (some "p") (some "r") false
    rfl (by decide) (by decide)


/-- Counting helper: the flush loop's two counters sum to the number of
iterated entries. -/
theorem syncCounts_sum (deliver : PendingWrite → Bool) :
    ∀ (l : List PendingWrite) (a b : Nat),
      (l.foldl (fun (x : Nat × Nat) e =>
          if deliver e then (x.1 + 1, x.2) else (x.1, x.2 + 1)) (a, b)).1
        + (l.foldl (fun (x : Nat × Nat) e =>
          if deliver e then (x.1 + 1, x.2) else (x.1, x.2 + 1)) (a, b)).2
        = a + b + l.length
  | [], a, b => by simp
  | e :: es, a, b => by
    simp only [List.foldl_cons, List.length_cons]
    by_cases h : deliver e
    · rw [if_pos h, syncCounts_sum deliver es (a + 1) b]
      omega
    · rw [if_neg h, syncCounts_sum deliver es a (b + 1)]
      omega

/-- C7: flushing a non-empty pending-writes queue of `k` entries hands each
entry to the delivery callback exactly once (the ghost trace equals the
queue), returns counts summing to `k`, and afterwards the count is `0` and
the backing file is absent — failed entries are removed, not retried. -/
theorem sync_flush_spec (deliver : PendingWrite → Bool) (s : MemState)
    (h : s.pendingWrites ≠ []) :
    (syncToVectorDB deliver s).1.1 + (syncToVectorDB deliver s).1.2
        = s.pendingWrites.length
    ∧ (syncToVectorDB deliver s).2.1 = s.pendingWrites
    ∧ getPendingWritesCount (syncToVectorDB deliver s).2.2 = 0
    ∧ (syncToVectorDB deliver s).2.2.pendingFileOnDisk = false := by
  have hne : s.pendingWrites.isEmpty = false := by
    cases hq : s.pendingWrites
    · exact absurd hq h
    · simp
  unfold syncToVectorDB getPendingWritesCount
  simp only [hne, Bool.false_eq_true, if_false]
  refine ⟨?_, ?_, ?_, ?_⟩
  · simpa using syncCounts_sum deliver s.pendingWrites 0 0
  · trivial
  · rfl
  · trivial

/-- Witness for C7: a two-entry queue, one delivery failing. -/
theorem sync_flush_spec_witness :
    (let s := { sT with pendingWrites :=
      [⟨"track", "c1", none, none, none, false, ["a.txt"], none, "t1"⟩,
       ⟨"snap", "c2", some "p", none, none, true, [], some "c1", "t2"⟩] }
     let deliver : PendingWrite → Bool := fun e => e.operationType == "track"
     (syncToVectorDB deliver s).1.1 + (syncToVectorDB deliver s).1.2
        = s.pendingWrites.length
     ∧ (syncToVectorDB deliver s).2.1 = s.pendingWrites
     ∧ getPendingWritesCount (syncToVectorDB deliver s).2.2 = 0
     ∧ (syncToVectorDB deliver s).2.2.pendingFileOnDisk = false) :=
  sync_flush_spec _ _ (by decide)



/-- C4: if resolving the target fails, the branch registry cannot be
loaded, or the archive export fails, `jump` returns a failure and the
state — working directory, registry, HEAD and jump log — is exactly the
input state: all mutations happen only after the archive export succeeds. -/
theorem jump_failure_no_mutation (env : Env) (s : MemState) (ch : String)
    (hfail : resolveRef s ch = none ∨ s.branchesFile = none ∨
      (∃ full, resolveRef s ch = some full ∧ archiveOf s full = none)) :
    jumpOp env s ch = ((.UNKNOWN_ERROR, ""), s) := by
  unfold jumpOp
  rcases hfail with h | h | ⟨full, hres, harc⟩
  · simp [h]
  · cases hres : resolveRef s ch with
    | none => simp
    | some full => simp [h]
  · rw [hres]
    cases hb : s.branchesFile with
    | none => simp
    | some b => simp [harc]

/-- Witness for C4: an unresolvable target reference. -/
theorem jump_failure_no_mutation_witness :
    jumpOp envT sT "nosuch" = ((.UNKNOWN_ERROR, ""), sT) :=
  jump_failure_no_mutation envT sT "nosuch" (Or.inl (by decide))



/-- C2 (code bug witnessed): `jump` builds `all_tracked_files` from the
*absolute* paths returned by `get_files_by_commit` but compares each
against `snapshot_files`, the *relative* path list of the target commit, so
the `not in` test always succeeds and even a file recorded in the target
commit's tree is deleted (then re-created by the extraction step).  At the
fixture state, branch tips are `["c1"]`, `a.txt` is in `c1`'s tree and on
disk, and the deletion loop (`jumpDeletionSet`) nevertheless deletes it. -/
theorem jump_deletion_deletes_target_tree_file :
    sT.branchesFile.map (fun b => b.branches.map (·.2)) = some ["c1"]
    ∧ "a.txt" ∈ commitFilesRel sT "c1"
    ∧ absOf envT.root "a.txt" ∈
        jumpDeletionSet envT.root
          (["c1"].flatMap (fun tip =>
            (ancestry sT tip).flatMap (fun c => commitFilesAbs envT sT c)))
          (commitFilesRel sT "c1") sT.workspace := by
  decide




/-- C3: on a successful `jump` to a resolvable target, the previous current
branch's registry entry still maps to the commit id it had before the jump;
the only key inserted into the branch map is `jump/<n>` — with `n` the
smallest positive integer such that `jump/<n>` is not already a key — and
it is pointed at the target commit and made current. -/
theorem jump_registry_spec (env : Env) (s : MemState) (ch : String)
    (full : CommitId) (b : BranchesCfg) (tar : List (Path × Content))
    (pb : String) (pc : CommitId)
    (hres : resolveRef s ch = some full)
    (hb : s.branchesFile = some b)
    (harc : archiveOf s full = some tar)
    (hcur : b.current = some pb)
    (hpc : alookup b.branches pb = some pc) :
    (jumpOp env s ch).1.1 = .SUCCESS
    ∧ (jumpOp env s ch).1.2 = jumpNm (generateJumpN b.branches)
    ∧ (∃ b', (jumpOp env s ch).2.branchesFile = some b'
        ∧ alookup b'.branches pb = some pc
        ∧ b'.current = some (jumpNm (generateJumpN b.branches))
        ∧ alookup b'.branches (jumpNm (generateJumpN b.branches)) = some full
        ∧ akeys b'.branches
            = akeys b.branches ++ [jumpNm (generateJumpN b.branches)])
    ∧ jumpNm (generateJumpN b.branches) ∉ akeys b.branches
    ∧ 1 ≤ generateJumpN b.branches
    ∧ (∀ m, 1 ≤ m → m < generateJumpN b.branches →
        jumpNm m ∈ akeys b.branches) := by
  have hfresh : jumpNm (generateJumpN b.branches) ∉ akeys b.branches :=
    generateJumpBranchName_not_mem b.branches
  have hnotany : ¬ (b.branches.any
      (fun e => e.1 == jumpNm (generateJumpN b.branches))) = true := by
    rw [any_beq_iff_mem_akeys]; exact hfresh
  have hpbne : pb ≠ jumpNm (generateJumpN b.branches) := by
    intro he
    exact hfresh (he ▸ mem_akeys_of_alookup hpc)
  have hbr : ∀ b' : BranchesCfg,
      b'.branches = aset b.branches (jumpNm (generateJumpN b.branches)) full →
      b'.current = some (jumpNm (generateJumpN b.branches)) →
      alookup b'.branches pb = some pc
      ∧ b'.current = some (jumpNm (generateJumpN b.branches))
      ∧ alookup b'.branches (jumpNm (generateJumpN b.branches)) = some full
      ∧ akeys b'.branches
          = akeys b.branches ++ [jumpNm (generateJumpN b.branches)] := by
    intro b' hb' hcur'
    refine ⟨?_, hcur', ?_, ?_⟩
    · rw [hb', alookup_aset_ne _ _ _ _ hpbne]; exact hpc
    · rw [hb']; exact alookup_aset_self _ _ _
    · rw [hb']; exact akeys_aset_fresh _ _ _ hnotany
  unfold jumpOp
  simp only [hres, hb, harc, hcur, Option.some_bind, generateJumpBranchName]
  refine ⟨?_, ?_, ?_, hfresh, generateJumpN_pos b.branches,
    fun m h1 hlt => generateJumpBranchName_min b.branches m h1 hlt⟩
  · trivial
  · trivial
  · cases hph : alookup b.branches pb with
    | none =>
      simp only [hph]
      exact ⟨_, rfl, hbr _ rfl rfl⟩
    | some ph =>
      by_cases hfull : ph = full
      · simp only [hph, hfull, ne_eq, not_true_eq_false, if_false]
        exact ⟨_, rfl, hbr _ rfl rfl⟩
      · simp only [hph, ne_eq, hfull, not_false_eq_true, if_true]
        exact ⟨_, rfl, hbr _ rfl rfl⟩

/-- Witness for C3: jumping to `c1` at the fixture state creates `jump/1`,
keeps `main -> c1`, and makes `jump/1` current. -/
theorem jump_registry_spec_witness :
    (jumpOp envT sT "c1").1.1 = .SUCCESS
    ∧ (jumpOp envT sT "c1").1.2 = "jump/1"
    ∧ ∃ b', (jumpOp envT sT "c1").2.branchesFile = some b'
        ∧ alookup b'.branches "main" = some "c1"
        ∧ b'.current = some "jump/1"
        ∧ alookup b'.branches "jump/1" = some "c1" := by
  have h := jump_registry_spec envT sT "c1" "c1"
      ⟨some "main", [("main", "c1")], []⟩
      [("a.txt", ["hello"]), ("d/e.txt", ["world"])] "main" "c1"
      (by decide) rfl (by decide) rfl (by decide)
  have hname : jumpNm (generateJumpN [("main", "c1")]) = "jump/1" := by decide
  obtain ⟨h1, h2, ⟨b', hb', hpb, hcur', hnew, _⟩, _⟩ := h
  refine ⟨h1, ?_, b', hb', hpb, ?_, ?_⟩
  · rw [h2]; exact hname
  · rw [hcur', hname]
  · rw [← hname]; exact hnew


theorem trackOp_pendingFrame (env : Env) (s : MemState) (fps : List Path)
    (pr re : Option String) (bu : Bool) :
    pendingParentNoneFrame s (trackOp env s fps pr re bu).2 := by
  have hbase : ∀ m files,
      pendingParentNoneFrame s
        (let c := commitOp env s m files
         if c.2 = "" then (MemStatus.FAILED_TO_COMMIT, c.1)
         else (MemStatus.SUCCESS,
           addToPendingWrites env c.1 "track" c.2 pr re none bu files)).2 := by
    intro m files
    unfold commitOp
    by_cases hc : (writeBlobToBareRepo env (validateAndFixBranches s) files m).2 = ""
    · simp only [hc, if_true]
      left
      rw [updateBranch_pendingWrites, writeBlobToBareRepo_pendingWrites,
        validateAndFixBranches_pendingWrites]
    · simp only [hc, Bool.false_eq_true, if_false]
      exact updateBranch_addPending_frame env s _ _ hc
        (by rw [writeBlobToBareRepo_pendingWrites, validateAndFixBranches_pendingWrites])
        "track" pr re none bu files
  unfold trackOp
  by_cases h1 : fps.isEmpty
  · simp only [h1, if_true]
    exact Or.inl rfl
  · simp only [h1, Bool.false_eq_true, if_false]
    cases hhc : (match s.headRef with
        | some h => some h
        | none => s.mainRef) with
    | none =>
      simp only [hhc]
      by_cases h2 : (filterNewFilesFiles s.workspace env.mign fps (some [])).isEmpty
      · simp only [h2, if_true]
        exact Or.inl rfl
      · simp only [h2, Bool.false_eq_true, if_false]
        exact hbase _ _
    | some h =>
      simp only [hhc]
      by_cases h2 : (filterNewFilesFiles s.workspace env.mign fps
          (some (commitFilesRel s h))).isEmpty
      · simp only [h2, if_true]
        exact Or.inl rfl
      · simp only [h2, Bool.false_eq_true, if_false]
        cases hm : (filterNewFilesFiles s.workspace env.mign fps
            (some (commitFilesRel s h))).mapM
            (fun p => (alookup (writeBlobs env s (filterNewFilesFiles s.workspace
              env.mign fps (some (commitFilesRel s h)))).2 p).map (fun b => (p, b))) with
        | none =>
          simp only [hm]
          exact Or.inl (writeBlobs_pendingWrites env s _)
        | some newEntries =>
          simp only [hm]
          cases hb : buildTreeStruct
              ((commitFilesRel s h).filterMap (fun p =>
                (alookup (commitBlobsRel s h) p).map (fun b => (p, b)))
              ++ newEntries) with
          | none =>
            simp only [hb]
            exact Or.inl (writeBlobs_pendingWrites env s _)
          | some tree =>
            simp only [hb]
            by_cases hc : (createCommitFromTreeStructure env
                (writeBlobs env s (filterNewFilesFiles s.workspace env.mign fps
                  (some (commitFilesRel s h)))).1 tree
                (trackMsg (filterNewFilesFiles s.workspace env.mign fps
                  (some (commitFilesRel s h))) pr re bu)).2 = ""
            · simp only [hc, if_true]
              left
              unfold createCommitFromTreeStructure
              rw [commitTree_pendingWrites, writeBlobs_pendingWrites]
            · simp only [hc, Bool.false_eq_true, if_false]
              refine updateBranch_addPending_frame env s _ _ hc ?_ "track" pr re none bu _
              rw [validateAndFixBranches_pendingWrites]
              unfold createCommitFromTreeStructure
              rw [commitTree_pendingWrites, writeBlobs_pendingWrites]


theorem snapshotOp_pendingFrame (env : Env) (s : MemState)
    (fps : Option (List Path)) (pr re ap : Option String) (bu : Bool) :
    pendingParentNoneFrame s (snapshotOp env s fps pr re ap bu).2 := by
  unfold snapshotOp
  by_cases hd : (match s.branchesFile with
      | some b => b.current.isNone
      | none => false) = true
  · simp only [hd, if_true]
    exact Or.inl rfl
  · simp only [hd, Bool.false_eq_true, if_false]
    cases hh : s.headRef with
    | none => exact Or.inl rfl
    | some h =>
      simp only []
      by_cases h2 : (commitFilesRel s h).isEmpty
      · simp only [h2, if_true]
        exact Or.inl rfl
      · simp only [h2, Bool.false_eq_true, if_false]
        cases fps with
        | none =>
          simp only []
          unfold commitOp
          by_cases hc : (writeBlobToBareRepo env (validateAndFixBranches s)
              (commitFilesRel s h) (snapMsgFull pr re ap bu)).2 = ""
          · simp only [hc, if_true]
            left
            rw [updateBranch_pendingWrites, writeBlobToBareRepo_pendingWrites,
              validateAndFixBranches_pendingWrites]
          · simp only [hc, Bool.false_eq_true, if_false]
            exact updateBranch_addPending_frame env s _ _ hc
              (by rw [writeBlobToBareRepo_pendingWrites,
                validateAndFixBranches_pendingWrites]) "snap" pr re ap bu _
        | some fps' =>
          simp only []
          by_cases h3 : (List.filter (fun p => decide (p ∈ commitFilesRel s h))
              fps'.dedup).isEmpty
          · simp only [h3, if_true]
            exact Or.inl rfl
          · simp only [h3, Bool.false_eq_true, if_false]
            generalize hts : List.filter (fun p => decide (p ∈ commitFilesRel s h))
              fps'.dedup = trackedSpecified
            generalize hr : writeBlobs env s (List.filter
              (fun p => (alookup s.workspace p).isSome) trackedSpecified) = r
            cases hm : (commitFilesRel s h).mapM (fun p =>
                ((if p ∈ trackedSpecified ∧ (alookup s.workspace p).isSome then
                    alookup r.2 p
                  else alookup (commitBlobsRel s h) p)).map (fun b => (p, b))) with
            | none =>
              simp only [hm]
              left
              rw [← hr, writeBlobs_pendingWrites]
            | some entries =>
              simp only [hm]
              cases hb : buildTreeStruct entries with
              | none =>
                simp only [hb]
                left
                rw [← hr, writeBlobs_pendingWrites]
              | some tree =>
                simp only [hb]
                by_cases hc : (createCommitFromTreeStructure env r.1 tree
                    (snapMsgScoped trackedSpecified pr re ap bu)).2 = ""
                · simp only [hc, if_true]
                  left
                  unfold createCommitFromTreeStructure
                  rw [commitTree_pendingWrites, ← hr, writeBlobs_pendingWrites]
                · simp only [hc, Bool.false_eq_true, if_false]
                  refine updateBranch_addPending_frame env s _ _ hc ?_ "snap" pr re ap bu _
                  rw [validateAndFixBranches_pendingWrites]
                  unfold createCommitFromTreeStructure
                  rw [commitTree_pendingWrites, ← hr, writeBlobs_pendingWrites]

theorem promptOnlyOp_pendingFrame (env : Env) (s : MemState)
    (pr re ap : Option String) (bu : Bool) :
    pendingParentNoneFrame s (promptOnlyOp env s pr re ap bu).2 := by
  unfold promptOnlyOp
  by_cases hd : (match s.branchesFile with
      | some b => b.current.isNone
      | none => false) = true
  · simp only [hd, if_true]
    exact Or.inl rfl
  · simp only [hd, Bool.false_eq_true, if_false]
    cases hh : s.headRef with
    | none => exact Or.inl rfl
    | some h =>
      simp only []
      cases hg : getCommit s h with
      | none => exact Or.inl rfl
      | some obj =>
        simp only []
        by_cases hc : (commitTree env s obj.tree
            (promptOnlyMsg pr re ap bu) (some h)).2 = ""
        · simp only [hc, if_true]
          left
          rw [commitTree_pendingWrites]
        · simp only [hc, Bool.false_eq_true, if_false]
          refine updateBranch_addPending_frame env s _ _ hc ?_ "prompt-only" pr re ap bu _
          rw [validateAndFixBranches_pendingWrites, commitTree_pendingWrites]

theorem renameOp_pendingFrame (env : Env) (s : MemState) (o n : Path)
    (pr re : Option String) (bu : Bool) :
    pendingParentNoneFrame s (renameOp env s o n pr re bu) := by
  unfold renameOp
  by_cases h1 : ((alookup s.workspace o).isSome && (alookup s.workspace n).isSome) = true
  · simp only [h1, if_true]
    exact Or.inl rfl
  · simp only [h1, Bool.false_eq_true, if_false]
    by_cases h2 : (!(alookup s.workspace o).isSome && !(alookup s.workspace n).isSome) = true
    · simp only [h2, if_true]
      exact Or.inl rfl
    · simp only [h2, Bool.false_eq_true, if_false]
      by_cases h3 : o ∉ (match s.headRef with
          | some h => commitFilesRel s h
          | none => [])
      · simp only [h3, if_true]
        exact Or.inl rfl
      · simp only [h3, if_false]
        generalize hws : (if (alookup s.workspace o).isSome = true then
            wsRename s.workspace o n else s.workspace) = ws'
        unfold commitOp
        by_cases hc : (writeBlobToBareRepo env
            (validateAndFixBranches { s with workspace := ws' })
            (walkProject ws' env.mign none)
            (renameMsg (alookup s.workspace o).isSome o n pr re bu)).2 = ""
        · simp only [hc, if_true]
          left
          rw [updateBranch_pendingWrites, writeBlobToBareRepo_pendingWrites,
            validateAndFixBranches_pendingWrites]
        · simp only [hc, Bool.false_eq_true, if_false]
          exact updateBranch_addPending_frame env s _ _ hc
            (by rw [writeBlobToBareRepo_pendingWrites,
              validateAndFixBranches_pendingWrites]) "rename" pr re none bu _

theorem removeOp_pendingFrame (env : Env) (s : MemState) (t : Path)
    (pr re : Option String) (bu : Bool) :
    pendingParentNoneFrame s (removeOp env s t pr re bu) := by
  unfold removeOp
  by_cases h1 : t ∉ (match s.headRef with
      | some h => commitFilesRel s h
      | none => [])
  · simp only [h1, if_true]
    exact Or.inl rfl
  · simp only [h1, if_false]
    by_cases h2 : ((alookup s.workspace t).isSome && !env.confirmRemove) = true
    · simp only [h2, if_true]
      exact Or.inl rfl
    · simp only [h2, Bool.false_eq_true, if_false]
      generalize hws : (if (alookup s.workspace t).isSome = true then
          aerase s.workspace t else s.workspace) = ws'
      unfold commitOp
      by_cases hc : (writeBlobToBareRepo env
          (validateAndFixBranches { s with workspace := ws' })
          ((match s.headRef with
            | some h => commitFilesRel s h
            | none => []).filter (fun p => p != t && (alookup ws' p).isSome))
          (removeMsg (alookup s.workspace t).isSome t pr re bu)).2 = ""
      · simp only [hc, if_true]
        left
        rw [updateBranch_pendingWrites, writeBlobToBareRepo_pendingWrites,
          validateAndFixBranches_pendingWrites]
      · simp only [hc, Bool.false_eq_true, if_false]
        exact updateBranch_addPending_frame env s _ _ hc
          (by rw [writeBlobToBareRepo_pendingWrites,
            validateAndFixBranches_pendingWrites]) "remove" pr re none bu _

/-- C10: every write operation — `track`, `snapshot` (either mode), the
prompt-only commit, `rename` and `remove` — either leaves the
pending-writes queue untouched or appends exactly one entry whose
`parent_hash` is `None`: the branch tip and `refs/memov/HEAD` are advanced
to the new commit before `_add_to_pending_writes` runs, so the head it
reads equals the new commit's own hash. -/
theorem pending_write_parent_always_none (env : Env) (s : MemState) :
    (∀ fps pr re bu,
      pendingParentNoneFrame s (trackOp env s fps pr re bu).2)
    ∧ (∀ fps pr re ap bu,
      pendingParentNoneFrame s (snapshotOp env s fps pr re ap bu).2)
    ∧ (∀ pr re ap bu,
      pendingParentNoneFrame s (promptOnlyOp env s pr re ap bu).2)
    ∧ (∀ o n pr re bu,
      pendingParentNoneFrame s (renameOp env s o n pr re bu))
    ∧ (∀ t pr re bu,
      pendingParentNoneFrame s (removeOp env s t pr re bu)) :=
  ⟨fun fps pr re bu => trackOp_pendingFrame env s fps pr re bu,
   fun fps pr re ap bu => snapshotOp_pendingFrame env s fps pr re ap bu,
   fun pr re ap bu => promptOnlyOp_pendingFrame env s pr re ap bu,
   fun o n pr re bu => renameOp_pendingFrame env s o n pr re bu,
   fun t pr re bu => removeOp_pendingFrame env s t pr re bu⟩


theorem mapM_pairs_spec {α β : Type} (g : α → Option β) :
    ∀ (l : List α) (entries : List (α × β)),
      l.mapM (fun p => (g p).map (fun b => (p, b))) = some entries →
      entries.map (·.1) = l ∧ ∀ p ∈ l, ∃ b, g p = some b ∧ (p, b) ∈ entries
  | [], entries => by
    intro hm
    simp only [List.mapM_nil, Option.pure_def, Option.some_inj] at hm
    subst hm
    simp
  | p :: ps, entries => by
    intro hm
    rw [List.mapM_cons] at hm
    simp only [Option.pure_def, Option.bind_eq_bind, Option.bind_eq_some,
      Option.map_eq_some', Option.some_inj] at hm
    obtain ⟨pb, ⟨b, hgb, rfl⟩, rest, hrest, rfl⟩ := hm
    have ih := mapM_pairs_spec g ps rest (by
      simpa [Option.bind_eq_bind, Option.bind_eq_some] using hrest)
    refine ⟨by simp [ih.1], ?_⟩
    intro q hq
    rcases List.mem_cons.1 hq with rfl | hq'
    · exact ⟨b, hgb, List.mem_cons_self _ _⟩
    · obtain ⟨b', hb', hmem⟩ := ih.2 q hq'
      exact ⟨b', hb', List.mem_cons_of_mem _ hmem⟩

theorem addToPendingWrites_headRef (env : Env) (s : MemState) (o : String)
    (c : CommitId) (pr re ap : Option String) (bu : Bool) (fl : List String) :
    (addToPendingWrites env s o c pr re ap bu fl).headRef = s.headRef := rfl

theorem addToPendingWrites_commits (env : Env) (s : MemState) (o : String)
    (c : CommitId) (pr re ap : Option String) (bu : Bool) (fl : List String) :
    (addToPendingWrites env s o c pr re ap bu fl).commits = s.commits := rfl

theorem updateBranch_commits (s : MemState) (c : CommitId) (r : Bool) :
    (updateBranch s c r).commits = s.commits := by
  unfold updateBranch
  cases s.branchesFile <;> rfl

theorem validateAndFixBranches_commits (s : MemState) :
    (validateAndFixBranches s).commits = s.commits := by
  cases h : s.branchesFile <;> simp [validateAndFixBranches, h]




theorem createCommitFromTreeStructure_eq (env : Env) (s : MemState)
    (tree : List (String × TreeNode)) (msg : Msg) :
    createCommitFromTreeStructure env s tree msg
      = commitTree env s tree msg s.headRef := rfl

theorem commitTree_commits_of_ne (env : Env) (s : MemState)
    (tree : List (String × TreeNode)) (msg : Msg) (parent : Option CommitId)
    (hne : (commitTree env s tree msg parent).2 ≠ "") :
    (commitTree env s tree msg parent).1.commits
      = aset s.commits (commitTree env s tree msg parent).2
          ⟨parent, tree, msg⟩ := by
  unfold commitTree at hne ⊢
  by_cases hc : env.commitIdOf tree parent msg = ""
  · simp only [hc, if_true] at hne
    exact absurd rfl hne
  · simp only [hc, Bool.false_eq_true, if_false]

set_option maxHeartbeats 1000000 in
/-- C1: scoped-snapshot isolation.  With files `A` and `B` both tracked in
the tip commit `T` and `B`'s on-disk content drifted, a successful
`snapshot(paths=[A])` records, at path `B` in the new tip commit's tree,
exactly the blob id `T` recorded for `B`: only the listed tracked paths are
re-hashed, every other tracked path reuses its tip blob unchanged.  (The
`Pairwise nonConflict` hypothesis states that the tip's tracked paths do
not collide file-vs-directory, which `git ls-tree` guarantees.) -/
theorem scoped_snapshot_preserves_unspecified (env : Env) (s : MemState)
    (h : CommitId) (A B : Path) (pr re ap : Option String) (bu : Bool)
    (hh : s.headRef = some h)
    (hA : A ∈ commitFilesRel s h)
    (hB : B ∈ commitFilesRel s h)
    (hBA : B ≠ A)
    (hmod : (alookup s.workspace B).map env.hashC
        ≠ alookup (commitBlobsRel s h) B)
    (hpw : (commitFilesRel s h).Pairwise
        (fun p q => nonConflict (splitPathParts p) (splitPathParts q)))
    (hsucc : (snapshotOp env s (some [A]) pr re ap bu).1 = .SUCCESS) :
    ∃ cid obj', (snapshotOp env s (some [A]) pr re ap bu).2.headRef = some cid
      ∧ getCommit (snapshotOp env s (some [A]) pr re ap bu).2 cid = some obj'
      ∧ lookupParts obj'.tree (splitPathParts B)
          = alookup (commitBlobsRel s h) B := by
  have hded : ([A] : List Path).dedup = [A] := by simp
  have hts : (([A] : List Path).filter
      (fun p => decide (p ∈ commitFilesRel s h))) = [A] := by
    simp [hA]
  have hne : (commitFilesRel s h).isEmpty = false := by
    cases hc : commitFilesRel s h with
    | nil => rw [hc] at hB; exact absurd hB (List.not_mem_nil _)
    | cons x xs => rfl
  unfold snapshotOp at hsucc ⊢
  revert hsucc
  simp only [hh, hne, Bool.false_eq_true, if_false, hded, hts,
    List.isEmpty_cons]
  split
  · intro hsucc
    exact absurd hsucc (by simp)
  · split
    · intro hsucc
      exact absurd hsucc (by simp)
    · split
      · intro hsucc
        exact absurd hsucc (by simp)
      · split
        · intro hsucc
          exact absurd hsucc (by simp)
        · intro hsucc
          rename_i hdet x1 entries hm x2 tree hb hcid
          have spec := mapM_pairs_spec
            (fun p => if p ∈ ([A] : List Path) ∧ (alookup s.workspace p).isSome then
                alookup (writeBlobs env s
                  (List.filter (fun p => (alookup s.workspace p).isSome) [A])).2 p
              else alookup (commitBlobsRel s h) p)
            (commitFilesRel s h) entries hm
          obtain ⟨bB, hgB, hmem⟩ := spec.2 B hB
          simp only [List.mem_singleton, hBA, false_and, if_false] at hgB
          have hpwE : entries.Pairwise (fun e f =>
              nonConflict (splitPathParts e.1) (splitPathParts f.1)) := by
            rw [← spec.1] at hpw
            have h3 := List.pairwise_map.mp hpw
            exact h3
          have hlook := buildTreeStruct_lookup hb hpwE hmem
          refine ⟨(createCommitFromTreeStructure env
              (writeBlobs env s (List.filter
                (fun p => (alookup s.workspace p).isSome) [A])).1 tree
              (snapMsgScoped [A] pr re ap bu)).2,
            ⟨(writeBlobs env s (List.filter
                (fun p => (alookup s.workspace p).isSome) [A])).1.headRef,
              tree, snapMsgScoped [A] pr re ap bu⟩, ?_, ?_, ?_⟩
          · rw [addToPendingWrites_headRef, updateBranch_headRef]
            simp [applyRef, hcid]
          · unfold getCommit
            rw [addToPendingWrites_commits, updateBranch_commits,
              validateAndFixBranches_commits,
              createCommitFromTreeStructure_eq,
              commitTree_commits_of_ne env _ _ _ _ (by
                rw [← createCommitFromTreeStructure_eq]; exact hcid)]
            exact alookup_aset_self _ _ _
          · rw [hlook, hgB]


/-- Witness for C1: snapshotting only `a.txt` while `d/e.txt` drifted on
disk keeps `d/e.txt`'s tip blob. -/
theorem scoped_snapshot_preserves_unspecified_witness :
    ∃ cid obj',
      (snapshotOp envT sT (some ["a.txt"]) (some "p") (some "r") none
        false).2.headRef = some cid
      ∧ getCommit (snapshotOp envT sT (some ["a.txt"]) (some "p") (some "r")
          none false).2 cid = some obj'
      ∧ lookupParts obj'.tree (splitPathParts "d/e.txt")
          = alookup (commitBlobsRel sT "c1") "d/e.txt" :=
  scoped_snapshot_preserves_unspecified envT sT "c1" "a.txt" "d/e.txt"
    (some "p") (some "r") none false rfl (by decide) (by decide) (by decide)
    (by decide) (by decide) (by decide)


/-- C8: for a commit with no parent, the structured diff presents each file
of its tree as `"added"` with exactly one hunk whose header is
`"@@ -0,0 +1,<n> @@"`, whose counts are `(old 0,0; new 1,n)` with `n` the
file's line count, and whose lines are all of type `"add"` carrying the
file's full content. -/
theorem diff_no_parent_spec (env : Env) (s : MemState) (ch : String)
    (full : CommitId) (obj : CommitObj) (p : Path) (bid : BlobId)
    (c : Content)
    (hres : resolveRef s ch = some full)
    (hobj : getCommit s full = some obj)
    (hpar : obj.parent = none)
    (hmem : (p, bid) ∈ flattenTree obj.tree)
    (hblob : alookup s.blobs bid = some c) :
    (p, (⟨"added",
          [⟨"@@ -0,0 +1," ++ Nat.repr c.length ++ " @@", 0, 0, 1, c.length,
            c.map (fun l => ⟨"add", l⟩)⟩]⟩ : FileDiff))
      ∈ getCommitDiffByFile env s ch := by
  unfold getCommitDiffByFile
  simp only [hres, hobj, hpar]
  refine List.mem_filterMap.2 ⟨(p, bid), hmem, ?_⟩
  rw [hblob]
  rfl

/-- Witness for C8 at the fixture's parentless commit `c1`. -/
theorem diff_no_parent_spec_witness :
    ("a.txt", (⟨"added",
        [⟨"@@ -0,0 +1," ++ Nat.repr 1 ++ " @@", 0, 0, 1, 1,
          [⟨"add", "hello"⟩]⟩]⟩ : FileDiff))
      ∈ getCommitDiffByFile envT sT "c1" :=
  diff_no_parent_spec envT sT "c1" "c1" ⟨none, treeT, []⟩ "a.txt" "h(hello)"
    ["hello"] (by decide) rfl rfl (by decide) (by decide)


/-- C9 counterexample: at `sC9` (the tracked file is missing from disk, so
the commit helper returns the empty hash without raising), full-mode
`snapshot` returns `SUCCESS` and appends no pending write — but the branch
registry is NOT unchanged: `main`'s tip is overwritten with `""`, refuting
the claim that the tip is unchanged. -/
theorem snapshot_full_commit_failure_overwrites_tip :
    (snapshotOp envT sC9 none (some "p") none none false).1 = .SUCCESS
    ∧ (snapshotOp envT sC9 none (some "p") none none false).2.pendingWrites
        = sC9.pendingWrites
    ∧ (snapshotOp envT sC9 none (some "p") none none false).2.headRef
        = sC9.headRef
    ∧ (snapshotOp envT sC9 none (some "p") none none false).2.branchesFile
        = some ⟨some "main", [("main", "")], []⟩
    ∧ (snapshotOp envT sC9 none (some "p") none none false).2.branchesFile
        ≠ sC9.branchesFile := by
  refine ⟨rfl, rfl, rfl, rfl, ?_⟩
  decide

/-- C9 amended: in full-mode snapshot with at least one tracked file, if the
underlying commit creation fails by returning the empty commit hash (no
exception), `snapshot` still returns `SUCCESS`; no pending-write entry is
appended and `refs/memov/HEAD` is unchanged — but, unlike the claim's "tip
is unchanged", `_update_branch("")` overwrites the current branch's registry
entry with the empty hash. -/
theorem snapshot_full_commit_failure_spec (env : Env) (s : MemState)
    (h : CommitId) (b : BranchesCfg) (cur : String)
    (pr re ap : Option String) (bu : Bool)
    (hfix : validateAndFixBranches s = s)
    (hh : s.headRef = some h)
    (hb : s.branchesFile = some b)
    (hcur : b.current = some cur)
    (hisk : (alookup b.branches cur).isSome)
    (hne : (commitFilesRel s h).isEmpty = false)
    (hfail : (writeBlobToBareRepo env s (commitFilesRel s h)
        (snapMsgFull pr re ap bu)).2 = "") :
    (snapshotOp env s none pr re ap bu).1 = .SUCCESS
    ∧ (snapshotOp env s none pr re ap bu).2.pendingWrites = s.pendingWrites
    ∧ (snapshotOp env s none pr re ap bu).2.headRef = s.headRef
    ∧ (∃ b', (snapshotOp env s none pr re ap bu).2.branchesFile = some b'
        ∧ alookup b'.branches cur = some "") := by
  have hdet : (match s.branchesFile with
      | some b => b.current.isNone
      | none => false) = false := by
    rw [hb]
    simp [hcur]
  unfold snapshotOp
  simp only [hdet, Bool.false_eq_true, if_false, hh, hne]
  unfold commitOp
  rw [hfix]
  simp only [hfail, if_true]
  refine ⟨trivial, ?_, ?_, ?_⟩
  · rw [updateBranch_pendingWrites, writeBlobToBareRepo_pendingWrites]
  · rw [updateBranch_headRef, writeBlobToBareRepo_headRef]
    simp [applyRef, hh]
  · unfold updateBranch
    rw [writeBlobToBareRepo_branchesFile, hb]
    simp only [hcur, hisk, if_true]
    refine ⟨_, rfl, ?_⟩
    exact alookup_aset_self _ _ _

/-- Witness for the amended C9 at the concrete failing state. -/
theorem snapshot_full_commit_failure_spec_witness :
    (snapshotOp envT sC9 none (some "q") none none true).1 = .SUCCESS
    ∧ (snapshotOp envT sC9 none (some "q") none none true).2.pendingWrites
        = sC9.pendingWrites
    ∧ (snapshotOp envT sC9 none (some "q") none none true).2.headRef
        = sC9.headRef
    ∧ (∃ b', (snapshotOp envT sC9 none (some "q") none none
        true).2.branchesFile = some b'
        ∧ alookup b'.branches "main" = some "") :=
  snapshot_full_commit_failure_spec envT sC9 "c1"
    ⟨some "main", [("main", "c1")], []⟩ "main" (some "q") none none true
    rfl rfl rfl rfl (by decide) (by decide) (by decide)


/-- C6 counterexample: in the commit message `track` writes, the `Files:`
field comes first — before `Prompt:` — so the fields do not appear in the
claimed fixed order Prompt, Response, Agent Plan, Source, Files. -/
theorem commit_message_field_order_claim_false :
    fieldOrder (trackMsg ["a.txt"] (some "p") (some "r") false)
      = ["Files:".data, "Prompt:".data, "Response:".data, "Source:".data]
    ∧ ¬ (fieldOrder (trackMsg ["a.txt"] (some "p") (some "r")
        false)).Sublist claimedFieldOrder := by
  decide

/-- C6 amended: provided the interpolated values do not themselves inject
field-label lines, the structured fields appear in the fixed relative order
`Files` (when present) first, then `Prompt`, `Response`, `Agent Plan` (when
present), `Source` — in every commit message written by `track`, `snapshot`
(both modes), the prompt-only commit, `rename` and `remove` — so a
positional parser can locate each field. -/
theorem commit_message_field_order_amended (files : List String)
    (oldP newP target : String) (p r ap : Option String)
    (bu oldEx exed : Bool)
    (hfiles : labelFree (linesOfStr (joinWith ", " files)))
    (hsorted : labelFree (linesOfStr (joinWith ", " (sortStrings files))))
    (hrename : labelFree (linesOfStr (oldP ++ " -> " ++ newP)))
    (htarget : labelFree (linesOfStr target))
    (hp : labelFree (linesOfStr (optStr p)))
    (hr : labelFree (linesOfStr (optStr r)))
    (hap : labelFree (linesOfStr (optStr ap))) :
    fieldOrder (trackMsg files p r bu)
      = ["Files:".data, "Prompt:".data, "Response:".data, "Source:".data]
    ∧ fieldOrder (snapMsgScoped files p r ap bu)
      = ["Files:".data, "Prompt:".data, "Response:".data,
          "Agent Plan:".data, "Source:".data]
    ∧ fieldOrder (snapMsgFull p r ap bu)
      = ["Prompt:".data, "Response:".data, "Agent Plan:".data,
          "Source:".data]
    ∧ fieldOrder (promptOnlyMsg p r ap bu)
      = ["Prompt:".data, "Response:".data, "Agent Plan:".data,
          "Source:".data]
    ∧ fieldOrder (renameMsg oldEx oldP newP p r bu)
      = ["Files:".data, "Prompt:".data, "Response:".data, "Source:".data]
    ∧ fieldOrder (removeMsg exed target p r bu)
      = ["Files:".data, "Prompt:".data, "Response:".data, "Source:".data] := by
  refine ⟨?_, ?_, ?_, ?_, ?_, ?_⟩
  · unfold trackMsg
    simp only [List.cons_append, List.nil_append, List.append_assoc]
    rw [fieldOrder_cons_none _ _ (by decide),
      fieldOrder_cons_none _ _ (by decide),
      fieldOrder_labeled_append _ _ _ _ lineLabel_files hfiles,
      fieldOrder_labeled_append _ _ _ _ lineLabel_prompt hp,
      fieldOrder_labeled_append _ _ _ _ lineLabel_response hr,
      fieldOrder_labeled _ _ _ lineLabel_source (labelFree_srcText bu)]
  · unfold snapMsgScoped
    simp only [List.cons_append, List.nil_append, List.append_assoc]
    rw [fieldOrder_cons_none _ _ (by decide),
      fieldOrder_cons_none _ _ (by decide),
      fieldOrder_labeled_append _ _ _ _ lineLabel_files hsorted,
      fieldOrder_labeled_append _ _ _ _ lineLabel_prompt hp,
      fieldOrder_labeled_append _ _ _ _ lineLabel_response hr,
      fieldOrder_labeled_append _ _ _ _ lineLabel_agentPlan hap,
      fieldOrder_labeled _ _ _ lineLabel_source (labelFree_srcText bu)]
  · unfold snapMsgFull
    simp only [List.cons_append, List.nil_append, List.append_assoc]
    rw [fieldOrder_cons_none _ _ (by decide),
      fieldOrder_cons_none _ _ (by decide),
      fieldOrder_labeled_append _ _ _ _ lineLabel_prompt hp,
      fieldOrder_labeled_append _ _ _ _ lineLabel_response hr,
      fieldOrder_labeled_append _ _ _ _ lineLabel_agentPlan hap,
      fieldOrder_labeled _ _ _ lineLabel_source (labelFree_srcText bu)]
  · unfold promptOnlyMsg
    simp only [List.cons_append, List.nil_append, List.append_assoc]
    rw [fieldOrder_cons_none _ _ (by decide),
      fieldOrder_cons_none _ _ (by decide),
      fieldOrder_labeled_append _ _ _ _ lineLabel_prompt hp,
      fieldOrder_labeled_append _ _ _ _ lineLabel_response hr,
      fieldOrder_labeled_append _ _ _ _ lineLabel_agentPlan hap,
      fieldOrder_labeled _ _ _ lineLabel_source (labelFree_srcText bu)]
  · unfold renameMsg
    simp only [List.cons_append, List.nil_append, List.append_assoc]
    rw [fieldOrder_cons_none _ _ (by cases oldEx <;> decide),
      fieldOrder_cons_none _ _ (by decide),
      fieldOrder_labeled_append _ _ _ _ lineLabel_files hrename,
      fieldOrder_labeled_append _ _ _ _ lineLabel_prompt hp,
      fieldOrder_labeled_append _ _ _ _ lineLabel_response hr,
      fieldOrder_labeled _ _ _ lineLabel_source (labelFree_srcText bu)]
  · unfold removeMsg
    simp only [List.cons_append, List.nil_append, List.append_assoc]
    rw [fieldOrder_cons_none _ _ (by cases exed <;> decide),
      fieldOrder_cons_none _ _ (by decide),
      fieldOrder_labeled_append _ _ _ _ lineLabel_files htarget,
      fieldOrder_labeled_append _ _ _ _ lineLabel_prompt hp,
      fieldOrder_labeled_append _ _ _ _ lineLabel_response hr,
      fieldOrder_labeled _ _ _ lineLabel_source (labelFree_srcText bu)]

/-- Witness for the amended C6 at concrete field values. -/
theorem commit_message_field_order_amended_witness :
    fieldOrder (trackMsg ["a.txt", "d/e.txt"] (some "ask") (some "ans") true)
      = ["Files:".data, "Prompt:".data, "Response:".data, "Source:".data]
    ∧ fieldOrder (snapMsgScoped ["a.txt", "d/e.txt"] (some "ask")
        (some "ans") (some "plan") true)
      = ["Files:".data, "Prompt:".data, "Response:".data,
          "Agent Plan:".data, "Source:".data]
    ∧ fieldOrder (snapMsgFull (some "ask") (some "ans") (some "plan") true)
      = ["Prompt:".data, "Response:".data, "Agent Plan:".data,
          "Source:".data]
    ∧ fieldOrder (promptOnlyMsg (some "ask") (some "ans") (some "plan") true)
      = ["Prompt:".data, "Response:".data, "Agent Plan:".data,
          "Source:".data]
    ∧ fieldOrder (renameMsg true "a.txt" "b.txt" (some "ask") (some "ans")
        true)
      = ["Files:".data, "Prompt:".data, "Response:".data, "Source:".data]
    ∧ fieldOrder (removeMsg false "a.txt" (some "ask") (some "ans") true)
      = ["Files:".data, "Prompt:".data, "Response:".data, "Source:".data] :=
  commit_message_field_order_amended ["a.txt", "d/e.txt"] "a.txt" "b.txt"
    "a.txt" (some "ask") (some "ans") (some "plan") true true false
    (by decide) (by decide) (by decide) (by decide) (by decide) (by decide)
    (by decide)

end Memov
